import Mathlib

/-!
# Verification of the codegraphgen extraction-and-merge core

Shallow embedding of the Go repository `codegraphgen`:

* `src/internal/core/graph/types.go` — deterministic identity scheme
  (`generateDeterministicID`, `generateDeterministicRelationshipID`,
  `CreateEntity`, `CreateRelationship`);
* `src/db/inmemory.go` — the in-memory store (`CreateEntity`,
  `CreateRelationship`, `CreateEntities`, `CreateRelationships`,
  `ClearDatabase`);
* `src/internal/core/code_processor.go` — the extraction orchestrator
  (`scanDirectory`, `shouldSkipDirectory`, `extractDirectories`,
  `createDirectoryEntity`, `createFileEntity`,
  `createFileDirectoryRelationships`, `createImportRelationships`,
  `AnalyzeCodebase`);
* `src/internal/core/analyzer.go` — the analyzer registry;
* `src/internal/core/analyzers/generic.go` — the fallback analyzer;
* `src/internal/core/analyzers/typescript.go` — `StoreKnowledgeGraph`.

Modelling conventions:

* Go strings are byte slices; they are modelled as `List Nat` (one element
  per byte).  All inputs appearing in the development are ASCII, so
  `strings.ToLower` coincides with byte-wise ASCII lowering.
* Go `map[K]V` values are modelled as association lists.  Map assignment
  `m[k] = v` replaces the first entry with key `k` (or appends), and map
  lookup returns the first entry.  A list denotes a real Go map exactly
  when its keys are non-duplicated; theorems that need this state it as an
  explicit hypothesis.  Go's random map-iteration order is modelled by
  list order; all statements proved are insensitive to the choice except
  where a hypothesis pins matches down to be unique.
* `float64` confidences are modelled as `Rat`.  The code only ever
  compares and copies confidences (never does arithmetic on them), so the
  embedding is exact on the values that occur.
-/

set_option autoImplicit false

namespace CodeGraph

/-- A Go string: the list of its bytes. -/
abbrev GoStr := List Nat

/-- Builds a `GoStr` from an ASCII Lean string literal (used only to write
down concrete inputs; for ASCII text the code points are the bytes). -/
def str (s : String) : GoStr := s.data.map Char.toNat

/-- ASCII byte lowering: `strings.ToLower` restricted to ASCII input. -/
def lowerByte (b : Nat) : Nat := if 65 ≤ b ∧ b ≤ 90 then b + 32 else b

/-- `strings.ToLower` on an ASCII Go string. -/
def goToLower (s : GoStr) : GoStr := s.map lowerByte

/-- The byte `'|'`, the separator used by the identity scheme. -/
def pipeByte : Nat := 124

/-- The byte `'/'`, the path separator. -/
def slashByte : Nat := 47

/-- The byte `'.'`. -/
def dotByte : Nat := 46

/-- `strings.Join parts "|"`. -/
def joinPipe : List GoStr → GoStr
  | [] => []
  | [x] => x
  | x :: xs => x ++ pipeByte :: joinPipe xs

/-- Lowercase hexadecimal digit for a value (`0`–`9` → `'0'`–`'9'`,
everything else `10 + k` → `'a' + k`), as used by `fmt.Sprintf("%x", _)`. -/
def hexDigit (n : Nat) : Nat := if n < 10 then 48 + n else 87 + n

/-- `fmt.Sprintf("%x", s)` for a Go string `s`: every byte becomes two
lowercase hex digits (high nibble first). -/
def goHex : GoStr → GoStr
  | [] => []
  | b :: t => hexDigit (b / 16) :: hexDigit (b % 16) :: goHex t

/-- Decodes one hex digit byte back to its value. -/
def unhexDigit (c : Nat) : Option Nat :=
  if 48 ≤ c ∧ c ≤ 57 then some (c - 48)
  else if 97 ≤ c ∧ c ≤ 102 then some (c - 87)
  else none

/-- Decodes a hex-encoded Go string back to the original bytes. -/
def unhex : GoStr → Option GoStr
  | [] => some []
  | [_] => none
  | a :: b :: r =>
    match unhexDigit a, unhexDigit b, unhex r with
    | some d1, some d2, some s => some ((16 * d1 + d2) :: s)
    | _, _, _ => none

/-- A well-formed Go string: every element is a byte. -/
def WFStr (s : GoStr) : Prop := ∀ b ∈ s, b < 256

instance (s : GoStr) : Decidable (WFStr s) := by
  unfold WFStr; infer_instance

theorem hexDigit_inj {m n : Nat} (h : hexDigit m = hexDigit n) : m = n := by
  unfold hexDigit at h
  split at h <;> split at h <;> omega

theorem length_goHex (s : GoStr) : (goHex s).length = 2 * s.length := by
  induction s with
  | nil => rfl
  | cons b t ih => simp only [goHex, List.length_cons, ih]; omega

theorem goHex_inj : Function.Injective goHex := by
  intro s t h
  induction s generalizing t with
  | nil => cases t with
    | nil => rfl
    | cons b t' => exact absurd h (by simp [goHex])
  | cons a s' ih =>
    cases t with
    | nil => exact absurd h (by simp [goHex])
    | cons b t' =>
      simp only [goHex, List.cons.injEq] at h
      obtain ⟨h1, h2, h3⟩ := h
      have ha := hexDigit_inj h1
      have hb := hexDigit_inj h2
      have : a = b := by omega
      subst this
      exact congrArg (a :: ·) (ih h3)

theorem unhexDigit_hexDigit {n : Nat} (h : n < 16) :
    unhexDigit (hexDigit n) = some n := by
  unfold hexDigit unhexDigit
  by_cases h10 : n < 10
  · rw [if_pos h10, if_pos (by omega)]
    congr 1
    omega
  · rw [if_neg h10, if_neg (by omega), if_pos (by omega)]
    congr 1
    omega

theorem unhex_goHex {s : GoStr} (hs : WFStr s) : unhex (goHex s) = some s := by
  induction s with
  | nil => rfl
  | cons b t ih =>
    have hb : b < 256 := hs b (List.mem_cons_self b t)
    have ht : WFStr t := fun x hx => hs x (List.mem_cons_of_mem b hx)
    have h1 : b / 16 < 16 := by omega
    have h2 : b % 16 < 16 := Nat.mod_lt _ (by norm_num)
    show unhex (hexDigit (b / 16) :: hexDigit (b % 16) :: goHex t) = some (b :: t)
    simp only [unhex, unhexDigit_hexDigit h1, unhexDigit_hexDigit h2, ih ht]
    have : 16 * (b / 16) + b % 16 = b := by omega
    rw [this]

/-! ## Go maps as association lists -/

section AssocOps

variable {α : Type}

/-- Go map lookup `m[k]`: the (unique) entry with key `k`; on lists, the
first such entry. -/
def alookup (k : GoStr) : List (GoStr × α) → Option α
  | [] => none
  | (k', v) :: r => if k' = k then some v else alookup k r

/-- Go map assignment `m[k] = v`: replaces the entry with key `k` (on
lists, the first such entry), or appends a fresh one. -/
def aset (k : GoStr) (v : α) : List (GoStr × α) → List (GoStr × α)
  | [] => [(k, v)]
  | (k', v') :: r => if k' = k then (k', v) :: r else (k', v') :: aset k v r

/-- The keys of an association list. -/
def akeys (l : List (GoStr × α)) : List GoStr := l.map Prod.fst

/-- An association list denotes a Go map exactly when its keys are
non-duplicated. -/
def NodupKeys (l : List (GoStr × α)) : Prop := (akeys l).Nodup

instance (l : List (GoStr × α)) : Decidable (NodupKeys l) := by
  unfold NodupKeys; infer_instance

theorem alookup_aset_self (k : GoStr) (v : α) (l : List (GoStr × α)) :
    alookup k (aset k v l) = some v := by
  induction l with
  | nil => simp [aset, alookup]
  | cons kv r ih =>
    obtain ⟨k', v'⟩ := kv
    by_cases h : k' = k
    · simp [aset, alookup, h]
    · simp [aset, alookup, h, ih]

theorem alookup_aset_ne {k k' : GoStr} (h : k' ≠ k) (v : α) (l : List (GoStr × α)) :
    alookup k (aset k' v l) = alookup k l := by
  induction l with
  | nil => simp [aset, alookup, h]
  | cons kv r ih =>
    obtain ⟨k₀, v₀⟩ := kv
    by_cases h0 : k₀ = k'
    · subst h0
      simp [aset, alookup, h, ih]
    · by_cases h1 : k₀ = k
      · subst h1
        simp [aset, alookup, h0]
      · simp [aset, alookup, h0, h1, ih]

theorem aset_aset_self (k : GoStr) (v w : α) (l : List (GoStr × α)) :
    aset k v (aset k w l) = aset k v l := by
  induction l with
  | nil => simp [aset]
  | cons kv r ih =>
    obtain ⟨k₀, v₀⟩ := kv
    by_cases h0 : k₀ = k <;> simp [aset, h0, ih]

theorem aset_noop {k : GoStr} {v : α} {l : List (GoStr × α)}
    (h : alookup k l = some v) : aset k v l = l := by
  induction l with
  | nil => simp [alookup] at h
  | cons kv r ih =>
    obtain ⟨k₀, v₀⟩ := kv
    by_cases h0 : k₀ = k
    · simp [alookup, h0] at h
      simp [aset, h0, h]
    · simp [alookup, h0] at h
      simp [aset, h0, ih h]

theorem aset_comm {k k' : GoStr} (hne : k ≠ k') {l : List (GoStr × α)}
    (hk : (alookup k l).isSome) (v w : α) :
    aset k' w (aset k v l) = aset k v (aset k' w l) := by
  induction l with
  | nil => simp [alookup] at hk
  | cons kv r ih =>
    obtain ⟨k₀, v₀⟩ := kv
    by_cases h0 : k₀ = k
    · subst h0
      simp [aset, hne]
    · by_cases h1 : k₀ = k'
      · subst h1
        simp [aset, Ne.symm hne]
      · simp [alookup, h0] at hk
        simp [aset, h0, h1, ih hk]

theorem alookup_isSome_aset (k k' : GoStr) (v : α) (l : List (GoStr × α))
    (h : (alookup k l).isSome) : (alookup k (aset k' v l)).isSome := by
  by_cases he : k' = k
  · subst he
    simp [alookup_aset_self]
  · rwa [alookup_aset_ne he]

theorem akeys_aset_of_isSome {k : GoStr} {l : List (GoStr × α)} (v : α)
    (h : (alookup k l).isSome) : akeys (aset k v l) = akeys l := by
  induction l with
  | nil => simp [alookup] at h
  | cons kv r ih =>
    obtain ⟨k₀, v₀⟩ := kv
    by_cases h0 : k₀ = k
    · simp [aset, h0, akeys]
    · simp [alookup, h0] at h
      simp [aset, h0, akeys] at ih ⊢
      exact ih h

theorem alookup_mem {k : GoStr} {v : α} {l : List (GoStr × α)}
    (h : alookup k l = some v) : (k, v) ∈ l := by
  induction l with
  | nil => simp [alookup] at h
  | cons kv r ih =>
    obtain ⟨k₀, v₀⟩ := kv
    by_cases h0 : k₀ = k
    · subst h0
      simp [alookup] at h
      simp [h]
    · simp [alookup, h0] at h
      exact List.mem_cons_of_mem _ (ih h)

theorem alookup_of_mem_nodup {k : GoStr} {v : α} {l : List (GoStr × α)}
    (hn : NodupKeys l) (h : (k, v) ∈ l) : alookup k l = some v := by
  induction l with
  | nil => simp at h
  | cons kv r ih =>
    obtain ⟨k₀, v₀⟩ := kv
    rcases List.mem_cons.1 h with he | hm
    · rw [Prod.ext_iff] at he
      obtain ⟨h1, h2⟩ := he
      simp at h1 h2
      subst h1; subst h2
      simp [alookup]
    · have hk : k₀ ≠ k := by
        rintro rfl
        have : k₀ ∈ akeys r := List.mem_map.2 ⟨(k₀, v), hm, rfl⟩
        simp [NodupKeys, akeys] at hn
        exact hn.1 v (by simpa [akeys] using hm)
      have hn' : NodupKeys r := by
        simp [NodupKeys, akeys] at hn ⊢
        exact hn.2
      simp [alookup, hk, ih hn' hm]

end AssocOps

/-! ## Property values and property maps -/

/-- A property value (`interface{}` in Go): the values stored by this
program are strings and integers. -/
inductive PValue where
  | s (v : GoStr)
  | n (v : Nat)
deriving DecidableEq, Repr

/-- `fmt.Sprintf("%v", v)`: a string renders as itself, an integer in
decimal. -/
def render : PValue → GoStr
  | .s v => v
  | .n v => (Nat.toDigits 10 v).map Char.toNat

/-- Go `Properties` (`map[string]interface{}`). -/
abbrev PropMap := List (GoStr × PValue)

/-- The property-merge loop shared by the in-memory store's entity and
relationship upserts: `for k, v := range new { old[k] = v }` — incoming
values overwrite existing ones key by key. -/
def mergeProps (old new : PropMap) : PropMap :=
  new.foldl (fun acc kv => aset kv.1 kv.2 acc) old

theorem mergeProps_nil (a : PropMap) : mergeProps a [] = a := rfl

theorem mergeProps_cons (a : PropMap) (kv : GoStr × PValue) (b : PropMap) :
    mergeProps a (kv :: b) = mergeProps (aset kv.1 kv.2 a) b := rfl

theorem mergeProps_append (a b c : PropMap) :
    mergeProps a (b ++ c) = mergeProps (mergeProps a b) c := by
  simp [mergeProps, List.foldl_append]

theorem alookup_isSome_mergeProps (k : GoStr) (a b : PropMap)
    (h : (alookup k a).isSome) : (alookup k (mergeProps a b)).isSome := by
  induction b generalizing a with
  | nil => exact h
  | cons kv b' ih =>
    rw [mergeProps_cons]
    exact ih _ (alookup_isSome_aset k kv.1 kv.2 a h)

theorem alookup_isSome_mergeProps_right (k : GoStr) (a b : PropMap)
    (h : (alookup k b).isSome) : (alookup k (mergeProps a b)).isSome := by
  induction b generalizing a with
  | nil => simp [alookup] at h
  | cons kv b' ih =>
    obtain ⟨k₀, v₀⟩ := kv
    rw [mergeProps_cons]
    by_cases h0 : k₀ = k
    · subst h0
      exact alookup_isSome_mergeProps k₀ _ b'
        (by rw [alookup_aset_self]; rfl)
    · simp [alookup, h0] at h
      exact ih _ h

theorem alookup_mergeProps_of_notin (k : GoStr) (a b : PropMap)
    (h : alookup k b = none) : alookup k (mergeProps a b) = alookup k a := by
  induction b generalizing a with
  | nil => rfl
  | cons kv b' ih =>
    obtain ⟨k₀, v₀⟩ := kv
    by_cases h0 : k₀ = k
    · simp [alookup, h0] at h
    · simp [alookup, h0] at h
      rw [mergeProps_cons, ih _ h, alookup_aset_ne h0]

/-- Re-setting a key that the rest of the merge will overwrite anyway does
not change the merge result. -/
theorem mergeProps_aset_overwritten {k : GoStr} {b : PropMap} (c : PropMap)
    (v : PValue) (hc : (alookup k c).isSome) (hb : (alookup k b).isSome) :
    mergeProps (aset k v c) b = mergeProps c b := by
  induction b generalizing c v with
  | nil => simp [alookup] at hb
  | cons kv b' ih =>
    obtain ⟨k₁, w⟩ := kv
    by_cases h0 : k₁ = k
    · subst h0
      rw [mergeProps_cons, mergeProps_cons]
      simp only
      rw [aset_aset_self]
    · simp [alookup, h0] at hb
      rw [mergeProps_cons, mergeProps_cons]
      simp only
      rw [aset_comm (fun hh => h0 hh.symm) hc v w]
      exact ih _ v (alookup_isSome_aset _ _ _ _ hc) hb

/-- Replaying a property batch over its own merge result is the identity:
last-write-wins merging is idempotent per batch. -/
theorem mergeProps_refold (b a : PropMap) :
    mergeProps (mergeProps a b) b = mergeProps a b := by
  induction b generalizing a with
  | nil => rfl
  | cons kv b' ih =>
    obtain ⟨k, v⟩ := kv
    rw [mergeProps_cons, mergeProps_cons]
    simp only
    by_cases hk : (alookup k b').isSome
    · have hc : (alookup k (mergeProps (aset k v a) b')).isSome :=
        alookup_isSome_mergeProps k _ b' (by rw [alookup_aset_self]; rfl)
      rw [mergeProps_aset_overwritten _ v hc hk]
      exact ih _
    · have hnone : alookup k b' = none := by
        cases h : alookup k b' with
        | none => rfl
        | some w => rw [h] at hk; simp at hk
      have : alookup k (mergeProps (aset k v a) b') = some v := by
        rw [alookup_mergeProps_of_notin _ _ _ hnone, alookup_aset_self]
      rw [aset_noop this]
      exact ih _

/-! ## Data model (`src/db/struct.go`) -/

/-- A knowledge-graph entity.  `Confidence` (`float64` in Go) is modelled
as `Rat`; the code only compares and copies confidences. -/
structure Entity where
  id : GoStr
  label : GoStr
  type : GoStr
  properties : PropMap
  confidence : Rat
deriving DecidableEq, Repr

/-- A knowledge-graph relationship. -/
structure Relationship where
  id : GoStr
  source : GoStr
  target : GoStr
  type : GoStr
  properties : PropMap
  confidence : Rat
deriving DecidableEq, Repr

/-! ## Deterministic identity (`src/internal/core/graph/types.go`) -/

/-- The path discriminator of `generateDeterministicID`: the first present
of `fullPath`/`path`/`relativePath`, lowercased. -/
def pathPart (properties : PropMap) : List GoStr :=
  match alookup (str "fullPath") properties with
  | some fullPath => [goToLower (render fullPath)]
  | none =>
    match alookup (str "path") properties with
    | some path => [goToLower (render path)]
    | none =>
      match alookup (str "relativePath") properties with
      | some relativePath => [goToLower (render relativePath)]
      | none => []

/-- The source-location discriminator: `sourceFile` lowercased and — only
when `sourceFile` is present — `line:<lineNumber>` (not lowercased). -/
def sourcePart (properties : PropMap) : List GoStr :=
  match alookup (str "sourceFile") properties with
  | some sourceFile =>
    goToLower (render sourceFile) ::
      (match alookup (str "lineNumber") properties with
       | some lineNumber => [str "line:" ++ render lineNumber]
       | none => [])
  | none => []

/-- The `ns:<namespace>` discriminator, lowercased as a whole. -/
def nsPart (properties : PropMap) : List GoStr :=
  match alookup (str "namespace") properties with
  | some ns => [goToLower (str "ns:" ++ render ns)]
  | none => []

/-- The `pkg:<package>` discriminator, lowercased as a whole. -/
def pkgPart (properties : PropMap) : List GoStr :=
  match alookup (str "package") properties with
  | some pkg => [goToLower (str "pkg:" ++ render pkg)]
  | none => []

/-- The ordered discriminator parts assembled by `generateDeterministicID`
(each `keyParts = append(keyParts, …)` step appends in this order). -/
def idKeyParts (entityType label : GoStr) (properties : PropMap) : List GoStr :=
  [goToLower entityType, goToLower label]
    ++ pathPart properties ++ sourcePart properties
    ++ nsPart properties ++ pkgPart properties

/-- `generateDeterministicID`: the parts are joined with `"|"` and the
joined key is rendered with `fmt.Sprintf("%x", key)` — the `sha256` call
is commented out in the source, so the id is the hex encoding of the key
string itself. -/
def generateDeterministicID (entityType label : GoStr) (properties : PropMap) : GoStr :=
  goHex (joinPipe (idKeyParts entityType label properties))

/-- `generateDeterministicRelationshipID`: hex encoding of
`sourceID|relType|targetID`. -/
def generateDeterministicRelationshipID (sourceID targetID relType : GoStr) : GoStr :=
  goHex (sourceID ++ pipeByte :: (relType ++ pipeByte :: targetID))

namespace graph

/-- `graph.CreateEntity`: builds an entity with the deterministic id, the
original (un-lowercased) label, and confidence 1.0.  A Go `nil` property
map is replaced by an empty one; the model's callers always pass a list. -/
def CreateEntity (label : GoStr) (entityType : GoStr) (properties : PropMap) : Entity :=
  { id := generateDeterministicID entityType label properties
    label := label
    type := entityType
    properties := properties
    confidence := 1 }

/-- `graph.CreateRelationship`: builds a relationship with the
deterministic endpoint-and-type id and confidence 1.0. -/
def CreateRelationship (source target : GoStr) (relType : GoStr) (properties : PropMap) :
    Relationship :=
  { id := generateDeterministicRelationshipID source target relType
    source := source
    target := target
    type := relType
    properties := properties
    confidence := 1 }

end graph

/-! ## The in-memory store (`src/db/inmemory.go`) -/

/-- The state of `InMemoryDatabase`: its two Go maps. -/
structure Store where
  entities : List (GoStr × Entity)
  relationships : List (GoStr × Relationship)
deriving DecidableEq, Repr

/-- The merged record stored by `InMemoryDatabase.CreateEntity` when an
entity with the same id already exists: the new label overwrites, the
higher confidence wins, and properties merge key-by-key with incoming
values overwriting. -/
def mergeEntity (existing incoming : Entity) : Entity :=
  { existing with
    label := incoming.label
    confidence :=
      if existing.confidence < incoming.confidence then incoming.confidence
      else existing.confidence
    properties := mergeProps existing.properties incoming.properties }

/-- `InMemoryDatabase.CreateEntity`: insert as-is when the id is absent,
otherwise merge (never fails). -/
def dbCreateEntity (db : Store) (entity : Entity) : Store :=
  match alookup entity.id db.entities with
  | some existingEntity =>
    { db with entities := aset entity.id (mergeEntity existingEntity entity) db.entities }
  | none =>
    { db with entities := aset entity.id entity db.entities }

/-- The triple `(Source, Target, Type)` of a relationship. -/
def relTriple (r : Relationship) : GoStr × GoStr × GoStr := (r.source, r.target, r.type)

/-- The scan in `InMemoryDatabase.CreateRelationship` that looks for an
existing relationship with the same source, target and type; it returns
the matching map key together with the stored record. -/
def findMatchingRel (r : Relationship) (l : List (GoStr × Relationship)) :
    Option (GoStr × Relationship) :=
  l.find? (fun p => relTriple p.2 = relTriple r)

/-- The merged record stored when a relationship with the same triple
exists: higher confidence wins, properties merge with incoming values
overwriting (id, endpoints and type of the stored record are kept). -/
def mergeRel (existing incoming : Relationship) : Relationship :=
  { existing with
    confidence :=
      if existing.confidence < incoming.confidence then incoming.confidence
      else existing.confidence
    properties := mergeProps existing.properties incoming.properties }

/-- `InMemoryDatabase.CreateRelationship`: errors when either endpoint id
is absent from the entity map; otherwise merges into an existing edge with
the same `(source, target, type)` triple (found id non-empty — the code
uses `existingID != ""` as the found sentinel) or inserts the new record
under its own id. -/
def dbCreateRelationship (db : Store) (relationship : Relationship) :
    Except GoStr Store :=
  if (alookup relationship.source db.entities).isNone then
    .error (str "source entity not found")
  else if (alookup relationship.target db.entities).isNone then
    .error (str "target entity not found")
  else
    match findMatchingRel relationship db.relationships with
    | some (existingID, existingRel) =>
      if existingID ≠ [] then
        .ok { db with
          relationships :=
            aset existingID (mergeRel existingRel relationship) db.relationships }
      else
        .ok { db with
          relationships := aset relationship.id relationship db.relationships }
    | none =>
      .ok { db with
        relationships := aset relationship.id relationship db.relationships }

/-- The store after a `CreateRelationship` call, whether or not it
errored (a failed call leaves the store unchanged). -/
def relStep (db : Store) (relationship : Relationship) : Store :=
  match dbCreateRelationship db relationship with
  | .ok db' => db'
  | .error _ => db

/-- `InMemoryDatabase.CreateEntities`: upserts each entity in order
(`CreateEntity` never fails, so the whole batch is always applied). -/
def dbCreateEntities (db : Store) (entities : List Entity) : Store :=
  entities.foldl dbCreateEntity db

/-- `InMemoryDatabase.CreateRelationships`: upserts relationships in order
and stops at the first error, which is returned. -/
def dbCreateRelationships (db : Store) : List Relationship → Except GoStr Store
  | [] => .ok db
  | r :: rest =>
    match dbCreateRelationship db r with
    | .ok db' => dbCreateRelationships db' rest
    | .error e => .error e

/-- The store after `CreateRelationships`, including the mutations made
before an error aborted the batch. -/
def relsApplied (db : Store) : List Relationship → Store
  | [] => db
  | r :: rest =>
    match dbCreateRelationship db r with
    | .ok db' => relsApplied db' rest
    | .error _ => db

/-- `InMemoryDatabase.ClearDatabase`. -/
def dbClear (_ : Store) : Store := ⟨[], []⟩

/-- One run of "upsert the batch" as the spec's idempotence property
exercises it: `CreateEntities` followed by `CreateRelationships` (the
relationship phase keeps its mutations even when it aborts on an error). -/
def applyBatch (entities : List Entity) (relationships : List Relationship)
    (db : Store) : Store :=
  relsApplied (dbCreateEntities db entities) relationships

/-! ## Claims about the identity scheme (C5, C6, C10) -/

/-- Two optional property values that agree up to letter case (after
rendering): both absent, or both present with equal case-folded
renderings. -/
def optCaseEq (a b : Option PValue) : Prop :=
  a.map (fun v => goToLower (render v)) = b.map (fun v => goToLower (render v))

instance (a b : Option PValue) : Decidable (optCaseEq a b) := by
  unfold optCaseEq; infer_instance

theorem goToLower_append (a b : GoStr) :
    goToLower (a ++ b) = goToLower a ++ goToLower b := List.map_append _ a b

theorem pathPart_caseCongr {p1 p2 : PropMap}
    (hfp : optCaseEq (alookup (str "fullPath") p1) (alookup (str "fullPath") p2))
    (hp : optCaseEq (alookup (str "path") p1) (alookup (str "path") p2))
    (hrp : optCaseEq (alookup (str "relativePath") p1) (alookup (str "relativePath") p2)) :
    pathPart p1 = pathPart p2 := by
  unfold optCaseEq at hfp hp hrp
  unfold pathPart
  cases h1 : alookup (str "fullPath") p1 <;> cases h2 : alookup (str "fullPath") p2 <;>
    rw [h1, h2] at hfp <;> simp_all
  cases h3 : alookup (str "path") p1 <;> cases h4 : alookup (str "path") p2 <;>
    rw [h3, h4] at hp <;> simp_all
  cases h5 : alookup (str "relativePath") p1 <;> cases h6 : alookup (str "relativePath") p2 <;>
    rw [h5, h6] at hrp <;> simp_all

theorem sourcePart_caseCongr {p1 p2 : PropMap}
    (hsf : optCaseEq (alookup (str "sourceFile") p1) (alookup (str "sourceFile") p2))
    (hln : (alookup (str "lineNumber") p1).map render
      = (alookup (str "lineNumber") p2).map render) :
    sourcePart p1 = sourcePart p2 := by
  unfold optCaseEq at hsf
  unfold sourcePart
  cases h1 : alookup (str "sourceFile") p1 <;> cases h2 : alookup (str "sourceFile") p2 <;>
    rw [h1, h2] at hsf <;> simp_all
  cases h3 : alookup (str "lineNumber") p1 <;> cases h4 : alookup (str "lineNumber") p2 <;>
    rw [h3, h4] at hln <;> simp_all

theorem nsPart_caseCongr {p1 p2 : PropMap}
    (hns : optCaseEq (alookup (str "namespace") p1) (alookup (str "namespace") p2)) :
    nsPart p1 = nsPart p2 := by
  unfold optCaseEq at hns
  unfold nsPart
  cases h1 : alookup (str "namespace") p1 <;> cases h2 : alookup (str "namespace") p2 <;>
    rw [h1, h2] at hns <;> simp_all [goToLower_append]

theorem pkgPart_caseCongr {p1 p2 : PropMap}
    (hpk : optCaseEq (alookup (str "package") p1) (alookup (str "package") p2)) :
    pkgPart p1 = pkgPart p2 := by
  unfold optCaseEq at hpk
  unfold pkgPart
  cases h1 : alookup (str "package") p1 <;> cases h2 : alookup (str "package") p2 <;>
    rw [h1, h2] at hpk <;> simp_all [goToLower_append]

/-- C5 — Deterministic, case-insensitive identity: the id computed by
`CreateEntity` is a pure function of the discriminators; identical
discriminators give identical ids, letter-case changes of the label or of
the `fullPath`/`path`/`relativePath`/`sourceFile`/`namespace`/`package`
property values leave the id unchanged, and the returned entity keeps the
label's original casing. -/
theorem upsert_case_insensitive_identity
    (entityType l1 l2 : GoStr) (p1 p2 : PropMap)
    (hl : goToLower l1 = goToLower l2)
    (hfp : optCaseEq (alookup (str "fullPath") p1) (alookup (str "fullPath") p2))
    (hp : optCaseEq (alookup (str "path") p1) (alookup (str "path") p2))
    (hrp : optCaseEq (alookup (str "relativePath") p1) (alookup (str "relativePath") p2))
    (hsf : optCaseEq (alookup (str "sourceFile") p1) (alookup (str "sourceFile") p2))
    (hns : optCaseEq (alookup (str "namespace") p1) (alookup (str "namespace") p2))
    (hpk : optCaseEq (alookup (str "package") p1) (alookup (str "package") p2))
    (hln : (alookup (str "lineNumber") p1).map render
      = (alookup (str "lineNumber") p2).map render) :
    (graph.CreateEntity l1 entityType p1).id = (graph.CreateEntity l2 entityType p2).id
    ∧ (graph.CreateEntity l1 entityType p1).label = l1
    ∧ (graph.CreateEntity l2 entityType p2).label = l2 := by
  refine ⟨?_, rfl, rfl⟩
  show generateDeterministicID entityType l1 p1 = generateDeterministicID entityType l2 p2
  unfold generateDeterministicID idKeyParts
  rw [hl, pathPart_caseCongr hfp hp hrp, sourcePart_caseCongr hsf hln,
    nsPart_caseCongr hns, pkgPart_caseCongr hpk]

/-- Closed witness for C5 at concrete inputs: labels `Foo`/`FOO` with a
case-changed `path` value produce the same id, and labels are preserved. -/
theorem upsert_case_insensitive_identity_witness :
    (graph.CreateEntity (str "Foo") (str "CLASS") [(str "path", PValue.s (str "A/B.go"))]).id
      = (graph.CreateEntity (str "FOO") (str "CLASS") [(str "path", PValue.s (str "a/b.GO"))]).id
    ∧ (graph.CreateEntity (str "Foo") (str "CLASS")
        [(str "path", PValue.s (str "A/B.go"))]).label = str "Foo"
    ∧ (graph.CreateEntity (str "FOO") (str "CLASS")
        [(str "path", PValue.s (str "a/b.GO"))]).label = str "FOO" :=
  upsert_case_insensitive_identity (str "CLASS") (str "Foo") (str "FOO") _ _
    (by decide) (by decide) (by decide) (by decide) (by decide) (by decide)
    (by decide) (by decide)

/-- C6 — counterexample: as stated, the no-collision claim is false.
Two entities with the same type and label whose properties carry
*different* `sourceFile` values can collide: (a) values differing only in
letter case are case-folded to the same discriminator, and (b) a
`sourceFile` value containing the `|` separator can replay another
entity's `sourceFile`+`lineNumber` discriminators verbatim. -/
theorem no_collision_counterexample :
    (generateDeterministicID (str "FILE") (str "f")
        [(str "sourceFile", PValue.s (str "A.go"))]
      = generateDeterministicID (str "FILE") (str "f")
        [(str "sourceFile", PValue.s (str "a.go"))]
      ∧ str "A.go" ≠ str "a.go")
    ∧ (generateDeterministicID (str "FILE") (str "f")
        [(str "sourceFile", PValue.s (str "a")), (str "lineNumber", PValue.n 1)]
      = generateDeterministicID (str "FILE") (str "f")
        [(str "sourceFile", PValue.s (str "a|line:1"))]
      ∧ str "a" ≠ str "a|line:1") := by
  constructor
  · exact ⟨by decide, by decide⟩
  · exact ⟨by decide, by decide⟩

theorem pipe_notMem_goToLower {s : GoStr} (h : pipeByte ∉ s) :
    pipeByte ∉ goToLower s := by
  intro hmem
  obtain ⟨b, hb, he⟩ := List.mem_map.1 hmem
  unfold lowerByte at he
  unfold pipeByte at he h
  split at he <;> [omega; skip]
  subst he
  exact h hb

/-- Splitting a pipe-joined pair whose first components are pipe-free. -/
theorem pipe_split {a b x y : GoStr} (ha : pipeByte ∉ a) (hb : pipeByte ∉ b)
    (h : a ++ pipeByte :: x = b ++ pipeByte :: y) : a = b ∧ x = y := by
  induction a generalizing b with
  | nil =>
    cases b with
    | nil => simpa using h
    | cons c b' =>
      simp only [List.nil_append, List.cons_append, List.cons.injEq] at h
      exact absurd (h.1 ▸ List.mem_cons_self c b') (by simpa [← h.1] using hb)
  | cons c a' ih =>
    cases b with
    | nil =>
      simp only [List.cons_append, List.nil_append, List.cons.injEq] at h
      exact absurd (h.1 ▸ List.mem_cons_self c a') (by simpa [h.1] using ha)
    | cons d b' =>
      simp only [List.cons_append, List.cons.injEq] at h
      obtain ⟨rfl, h2⟩ := h
      have ha' : pipeByte ∉ a' := fun hm => ha (List.mem_cons_of_mem _ hm)
      have hb' : pipeByte ∉ b' := fun hm => hb (List.mem_cons_of_mem _ hm)
      obtain ⟨he, hxy⟩ := ih ha' hb' h2
      exact ⟨by rw [he], hxy⟩

/-- C6 — amended: for entities whose discriminators have the same shape
(no path/namespace/package discriminators; `sourceFile` and `lineNumber`
present) and whose discriminator renderings are free of the `|` separator,
`sourceFile` values that differ *after case folding* — or equal-case
`sourceFile`s with different `lineNumber` renderings — give different ids. -/
theorem no_collision_for_distinct_constructs
    (entityType l1 l2 : GoStr) (p1 p2 : PropMap) (v1 v2 w1 w2 : PValue)
    (hl : goToLower l1 = goToLower l2)
    (hfp1 : alookup (str "fullPath") p1 = none) (hfp2 : alookup (str "fullPath") p2 = none)
    (hp1 : alookup (str "path") p1 = none) (hp2 : alookup (str "path") p2 = none)
    (hrp1 : alookup (str "relativePath") p1 = none)
    (hrp2 : alookup (str "relativePath") p2 = none)
    (hns1 : alookup (str "namespace") p1 = none) (hns2 : alookup (str "namespace") p2 = none)
    (hpk1 : alookup (str "package") p1 = none) (hpk2 : alookup (str "package") p2 = none)
    (hsf1 : alookup (str "sourceFile") p1 = some v1)
    (hsf2 : alookup (str "sourceFile") p2 = some v2)
    (hln1 : alookup (str "lineNumber") p1 = some w1)
    (hln2 : alookup (str "lineNumber") p2 = some w2)
    (hv1 : pipeByte ∉ render v1) (hv2 : pipeByte ∉ render v2)
    (hdiff : goToLower (render v1) ≠ goToLower (render v2)
      ∨ (goToLower (render v1) = goToLower (render v2) ∧ render w1 ≠ render w2)) :
    generateDeterministicID entityType l1 p1 ≠ generateDeterministicID entityType l2 p2 := by
  intro hid
  unfold generateDeterministicID at hid
  have hkey := goHex_inj hid
  unfold idKeyParts at hkey
  rw [hl] at hkey
  unfold pathPart sourcePart nsPart pkgPart at hkey
  rw [hfp1, hp1, hrp1, hns1, hpk1, hsf1, hln1] at hkey
  rw [hfp2, hp2, hrp2, hns2, hpk2, hsf2, hln2] at hkey
  simp only [List.nil_append, List.append_nil, List.cons_append,
    List.singleton_append] at hkey
  simp only [joinPipe] at hkey
  have h1 := List.append_cancel_left hkey
  simp only [List.cons.injEq, true_and] at h1
  have h2 := List.append_cancel_left h1
  simp only [List.cons.injEq, true_and] at h2
  obtain ⟨hsf, hlnrest⟩ :=
    pipe_split (pipe_notMem_goToLower hv1) (pipe_notMem_goToLower hv2) h2
  have hw : render w1 = render w2 := List.append_cancel_left hlnrest
  rcases hdiff with hne | ⟨_, hwne⟩
  · exact hne hsf
  · exact hwne hw

/-- Closed witness for the amended C6: same type and label, `sourceFile`
values `a.go` vs `b.go` (same line number) give different ids; and the
same `sourceFile` with line numbers 1 vs 2 gives different ids. -/
theorem no_collision_for_distinct_constructs_witness :
    generateDeterministicID (str "FUNCTION") (str "f")
        [(str "sourceFile", PValue.s (str "a.go")), (str "lineNumber", PValue.n 3)]
      ≠ generateDeterministicID (str "FUNCTION") (str "f")
        [(str "sourceFile", PValue.s (str "b.go")), (str "lineNumber", PValue.n 3)] :=
  no_collision_for_distinct_constructs (str "FUNCTION") (str "f") (str "f") _ _
    (PValue.s (str "a.go")) (PValue.s (str "b.go")) (PValue.n 3) (PValue.n 3)
    (by decide) (by decide) (by decide) (by decide) (by decide) (by decide) (by decide)
    (by decide) (by decide) (by decide) (by decide) (by decide) (by decide) (by decide)
    (by decide) (by decide) (by decide) (Or.inl (by decide))

/-- C10 — the id is not a fixed-length hash but the hex encoding of the
pipe-joined discriminator key itself: it equals `hex(key)`, its length is
twice the key's byte length, the key is recoverable from the id by hex
decoding, hex encoding never collides on distinct keys, and relationship
ids are the hex encoding of `sourceId|type|targetId`. -/
theorem id_is_hex_of_discriminator_key
    (entityType label : GoStr) (properties : PropMap)
    (src tgt relType : GoStr) (s1 s2 : GoStr)
    (hwf : WFStr (joinPipe (idKeyParts entityType label properties)))
    (h12 : goHex s1 = goHex s2) :
    generateDeterministicID entityType label properties
        = goHex (joinPipe (idKeyParts entityType label properties))
    ∧ (generateDeterministicID entityType label properties).length
        = 2 * (joinPipe (idKeyParts entityType label properties)).length
    ∧ unhex (generateDeterministicID entityType label properties)
        = some (joinPipe (idKeyParts entityType label properties))
    ∧ s1 = s2
    ∧ generateDeterministicRelationshipID src tgt relType
        = goHex (src ++ pipeByte :: (relType ++ pipeByte :: tgt)) := by
  refine ⟨rfl, length_goHex _, ?_, goHex_inj h12, rfl⟩
  exact unhex_goHex hwf

/-- Closed witness for C10 at a concrete entity and concrete hex inputs. -/
theorem id_is_hex_of_discriminator_key_witness :
    generateDeterministicID (str "FILE") (str "Main.go")
        [(str "path", PValue.s (str "src/Main.go"))]
      = goHex (joinPipe (idKeyParts (str "FILE") (str "Main.go")
        [(str "path", PValue.s (str "src/Main.go"))]))
    ∧ (generateDeterministicID (str "FILE") (str "Main.go")
        [(str "path", PValue.s (str "src/Main.go"))]).length
      = 2 * (joinPipe (idKeyParts (str "FILE") (str "Main.go")
        [(str "path", PValue.s (str "src/Main.go"))])).length
    ∧ unhex (generateDeterministicID (str "FILE") (str "Main.go")
        [(str "path", PValue.s (str "src/Main.go"))])
      = some (joinPipe (idKeyParts (str "FILE") (str "Main.go")
        [(str "path", PValue.s (str "src/Main.go"))]))
    ∧ str "k1" = str "k1"
    ∧ generateDeterministicRelationshipID (str "s") (str "t") (str "IMPORTS")
      = goHex (str "s" ++ pipeByte :: (str "IMPORTS" ++ pipeByte :: str "t")) :=
  id_is_hex_of_discriminator_key (str "FILE") (str "Main.go")
    [(str "path", PValue.s (str "src/Main.go"))] (str "s") (str "t") (str "IMPORTS")
    (str "k1") (str "k1") (by decide) (by decide)

/-! ## Claims about the store upserts (C2, C3) -/

theorem akeys_cons {α : Type} (k : GoStr) (v : α) (l : List (GoStr × α)) :
    akeys ((k, v) :: l) = k :: akeys l := rfl

theorem nodupKeys_cons {α : Type} {k : GoStr} {v : α} {l : List (GoStr × α)} :
    NodupKeys ((k, v) :: l) ↔ k ∉ akeys l ∧ NodupKeys l := by
  simp [NodupKeys, akeys_cons]

theorem alookup_eq_none_of_not_mem_keys {α : Type} {k : GoStr}
    {l : List (GoStr × α)} (h : k ∉ akeys l) : alookup k l = none := by
  induction l with
  | nil => rfl
  | cons kv r ih =>
    obtain ⟨k₀, v₀⟩ := kv
    rw [akeys_cons, List.mem_cons, not_or] at h
    have hne : ¬k₀ = k := fun hh => h.1 hh.symm
    simp [alookup, hne, ih h.2]

/-- Lookup through a property merge when the incoming map has no
duplicate keys: the incoming value wins, otherwise the existing one. -/
theorem alookup_mergeProps (k : GoStr) (a : PropMap) {b : PropMap}
    (hb : NodupKeys b) :
    alookup k (mergeProps a b)
      = match alookup k b with
        | some v => some v
        | none => alookup k a := by
  induction b generalizing a with
  | nil => rfl
  | cons kv b' ih =>
    obtain ⟨k₀, v₀⟩ := kv
    have hnd : NodupKeys b' := (nodupKeys_cons.1 hb).2
    by_cases h0 : k₀ = k
    · subst h0
      have hnone : alookup k₀ b' = none :=
        alookup_eq_none_of_not_mem_keys (nodupKeys_cons.1 hb).1
      rw [mergeProps_cons]
      simp only [alookup, if_pos rfl]
      rw [ih _ hnd, hnone]
      simp [alookup_aset_self]
    · rw [mergeProps_cons]
      simp only [alookup, if_neg h0]
      rw [ih _ hnd]
      cases alookup k b' with
      | some w => rfl
      | none => simp [alookup_aset_ne h0]

theorem mergeEntity_confidence (ex e : Entity) :
    (mergeEntity ex e).confidence = max ex.confidence e.confidence := by
  unfold mergeEntity
  rcases lt_or_ge ex.confidence e.confidence with h | h
  · simp [h, max_eq_right (le_of_lt h)]
  · simp [not_lt.2 h, max_eq_left h]

/-- The confidence stored for key `i` after folding a batch of entities
that all carry id `i` over a store that already holds `u0` at `i`:
it is one of the candidate confidences and an upper bound of them. -/
theorem dbCreateEntities_confidence_fold (es : List Entity) (i : GoStr) :
    ∀ (s : Store) (u0 : Entity), alookup i s.entities = some u0 →
      (∀ e ∈ es, e.id = i) →
      ∃ u, alookup i (dbCreateEntities s es).entities = some u
        ∧ u.confidence ∈ u0.confidence :: es.map (·.confidence)
        ∧ ∀ c ∈ u0.confidence :: es.map (·.confidence), c ≤ u.confidence := by
  induction es with
  | nil =>
    intro s u0 h _
    exact ⟨u0, h, by simp, by simp⟩
  | cons e es' ih =>
    intro s u0 h hid
    have hei : e.id = i := hid e (List.mem_cons_self e es')
    have hstep : alookup i (dbCreateEntity s e).entities = some (mergeEntity u0 e) := by
      unfold dbCreateEntity
      rw [hei, h]
      simp [alookup_aset_self]
    obtain ⟨u, hu, humem, hub⟩ := ih (dbCreateEntity s e) (mergeEntity u0 e) hstep
      (fun x hx => hid x (List.mem_cons_of_mem e hx))
    refine ⟨u, hu, ?_, ?_⟩
    · simp only [List.map_cons]
      rcases List.mem_cons.1 humem with hm | hm
      · rw [hm, mergeEntity_confidence]
        rcases max_choice u0.confidence e.confidence with hc | hc <;> rw [hc] <;>
          simp [List.mem_cons]
      · exact List.mem_cons_of_mem _ (List.mem_cons_of_mem _ hm)
    · intro c hc
      rcases List.mem_cons.1 hc with rfl | hc'
      · have h1 : u0.confidence ≤ (mergeEntity u0 e).confidence := by
          rw [mergeEntity_confidence]
          exact le_max_left _ _
        exact le_trans h1 (hub _ (List.mem_cons_self _ _))
      · simp only [List.map_cons] at hc'
        rcases List.mem_cons.1 hc' with rfl | hc''
        · have h1 : e.confidence ≤ (mergeEntity u0 e).confidence := by
            rw [mergeEntity_confidence]
            exact le_max_right _ _
          exact le_trans h1 (hub _ (List.mem_cons_self _ _))
        · exact hub c (List.mem_cons_of_mem _ hc'')

/-- C2 — Entity upsert merge postcondition: an absent id is inserted
as-is; an existing record is merged with label overwritten, confidence
`max`-ed, and properties merged key-by-key with incoming values winning;
and `N` upserts of the same id over a store not containing it leave the
maximum of the batch confidences. -/
theorem entity_upsert_merge_postcondition :
    (∀ (s : Store) (e : Entity), alookup e.id s.entities = none →
      (dbCreateEntity s e).entities = aset e.id e s.entities)
    ∧ (∀ (s : Store) (e ex : Entity), NodupKeys e.properties →
        alookup e.id s.entities = some ex →
        ∃ u, alookup e.id (dbCreateEntity s e).entities = some u
          ∧ u.label = e.label
          ∧ u.confidence = max ex.confidence e.confidence
          ∧ ∀ k, alookup k u.properties
              = match alookup k e.properties with
                | some v => some v
                | none => alookup k ex.properties)
    ∧ (∀ (s : Store) (i : GoStr) (es : List Entity), es ≠ [] →
        (∀ e ∈ es, e.id = i) → alookup i s.entities = none →
        ∃ u, alookup i (dbCreateEntities s es).entities = some u
          ∧ u.confidence ∈ es.map (·.confidence)
          ∧ ∀ c ∈ es.map (·.confidence), c ≤ u.confidence) := by
  refine ⟨?_, ?_, ?_⟩
  · intro s e h
    unfold dbCreateEntity
    rw [h]
  · intro s e ex hnd h
    refine ⟨mergeEntity ex e, ?_, rfl, mergeEntity_confidence ex e, ?_⟩
    · unfold dbCreateEntity
      rw [h]
      simp [alookup_aset_self]
    · intro k
      exact alookup_mergeProps k ex.properties hnd
  · intro s i es hne hid h
    cases es with
    | nil => exact absurd rfl hne
    | cons e es' =>
      have hei : e.id = i := hid e (List.mem_cons_self e es')
      have hstep : alookup i (dbCreateEntity s e).entities = some e := by
        unfold dbCreateEntity
        rw [hei, h]
        simp [alookup_aset_self]
      obtain ⟨u, hu, humem, hub⟩ := dbCreateEntities_confidence_fold es' i
        (dbCreateEntity s e) e hstep (fun x hx => hid x (List.mem_cons_of_mem e hx))
      exact ⟨u, hu, by simpa using humem, by simpa using hub⟩

/-- Closed witness for C2: a fresh insert, then a merge with a higher
incoming confidence and an overlapping property key. -/
theorem entity_upsert_merge_postcondition_witness :
    ((dbCreateEntity ⟨[], []⟩ ⟨str "i", str "L", str "T", [(str "k", PValue.n 1)], 1⟩).entities
      = aset (str "i") ⟨str "i", str "L", str "T", [(str "k", PValue.n 1)], 1⟩ [])
    ∧ (∃ u, alookup (str "i")
          (dbCreateEntity
            ⟨[(str "i", ⟨str "i", str "L", str "T", [(str "k", PValue.n 1)], 1⟩)], []⟩
            ⟨str "i", str "M", str "T", [(str "k", PValue.n 2)], 2⟩).entities = some u
        ∧ u.label = str "M"
        ∧ u.confidence = max (1 : Rat) 2
        ∧ ∀ k, alookup k u.properties
            = match alookup k [(str "k", PValue.n 2)] with
              | some v => some v
              | none => alookup k [(str "k", PValue.n 1)]) := by
  constructor
  · exact entity_upsert_merge_postcondition.1 ⟨[], []⟩ _ (by decide)
  · obtain ⟨u, hu, h1, h2, h3⟩ := entity_upsert_merge_postcondition.2.1
      ⟨[(str "i", ⟨str "i", str "L", str "T", [(str "k", PValue.n 1)], 1⟩)], []⟩
      ⟨str "i", str "M", str "T", [(str "k", PValue.n 2)], 2⟩
      ⟨str "i", str "L", str "T", [(str "k", PValue.n 1)], 1⟩ (by decide) (by decide)
    exact ⟨u, hu, h1, h2, h3⟩

/-! ## StoreKnowledgeGraph (`src/internal/core/analyzers/typescript.go`) -/

/-- The relationship loop of `StoreKnowledgeGraph`: each failing
`CreateRelationship` is logged and skipped, successes are counted, and the
loop continues to the end of the batch.  Returns the final store and the
`successfulRelationships` count. -/
def storeKGRels : Store → List Relationship → Store × Nat
  | s, [] => (s, 0)
  | s, r :: rest =>
    match dbCreateRelationship s r with
    | .ok s' =>
      let p := storeKGRels s' rest
      (p.1, p.2 + 1)
    | .error _ => storeKGRels s rest

/-- `StoreKnowledgeGraph`: upserts all entities (the in-memory
`CreateEntity` cannot fail, so the entity loop never aborts), then runs
the relationship loop; the overall call returns no error. -/
def storeKnowledgeGraph (s : Store) (entities : List Entity)
    (relationships : List Relationship) : Store × Nat :=
  storeKGRels (dbCreateEntities s entities) relationships

/-- C3 — Referential integrity with per-record failure: a relationship
with a missing endpoint makes `CreateRelationship` return an error without
touching the store, and `StoreKnowledgeGraph` skips the failed record (no
success counted), continues with the remaining records, and never aborts
the batch because of it. -/
theorem referential_integrity_per_record_failure :
    (∀ (s : Store) (r : Relationship),
      alookup r.source s.entities = none ∨ alookup r.target s.entities = none →
      (∃ msg, dbCreateRelationship s r = .error msg) ∧ relStep s r = s)
    ∧ (∀ (s : Store) (r : Relationship) (rest : List Relationship) (msg : GoStr),
        dbCreateRelationship s r = .error msg →
        storeKGRels s (r :: rest) = storeKGRels s rest)
    ∧ (∀ (s : Store) (entities : List Entity) (relationships : List Relationship),
        storeKnowledgeGraph s entities relationships
          = storeKGRels (dbCreateEntities s entities) relationships) := by
  refine ⟨?_, ?_, fun _ _ _ => rfl⟩
  · intro s r h
    have herr : ∃ msg, dbCreateRelationship s r = .error msg := by
      unfold dbCreateRelationship
      rcases h with h | h
      · rw [h]
        exact ⟨_, rfl⟩
      · rw [h]
        by_cases hs : (alookup r.source s.entities).isNone
        · simp [hs]
        · simp [hs]
    refine ⟨herr, ?_⟩
    obtain ⟨msg, hmsg⟩ := herr
    unfold relStep
    rw [hmsg]
  · intro s r rest msg h
    rw [show storeKGRels s (r :: rest)
        = match dbCreateRelationship s r with
          | .ok s' =>
            let p := storeKGRels s' rest
            (p.1, p.2 + 1)
          | .error _ => storeKGRels s rest from rfl, h]

/-- Closed witness for C3: a one-entity store, a relationship to a missing
target errors and is skipped while the rest of the batch proceeds. -/
theorem referential_integrity_per_record_failure_witness :
    ((∃ msg, dbCreateRelationship
        ⟨[(str "a", ⟨str "a", str "a", str "T", [], 1⟩)], []⟩
        ⟨str "r", str "a", str "b", str "R", [], 1⟩ = .error msg)
      ∧ relStep ⟨[(str "a", ⟨str "a", str "a", str "T", [], 1⟩)], []⟩
          ⟨str "r", str "a", str "b", str "R", [], 1⟩
        = ⟨[(str "a", ⟨str "a", str "a", str "T", [], 1⟩)], []⟩)
    ∧ storeKGRels ⟨[(str "a", ⟨str "a", str "a", str "T", [], 1⟩)], []⟩
        [⟨str "r", str "a", str "b", str "R", [], 1⟩,
         ⟨str "r2", str "a", str "a", str "R", [], 1⟩]
      = storeKGRels ⟨[(str "a", ⟨str "a", str "a", str "T", [], 1⟩)], []⟩
        [⟨str "r2", str "a", str "a", str "R", [], 1⟩] := by
  constructor
  · exact referential_integrity_per_record_failure.1
      ⟨[(str "a", ⟨str "a", str "a", str "T", [], 1⟩)], []⟩
      ⟨str "r", str "a", str "b", str "R", [], 1⟩ (Or.inr (by decide))
  · exact referential_integrity_per_record_failure.2.1
      ⟨[(str "a", ⟨str "a", str "a", str "T", [], 1⟩)], []⟩
      ⟨str "r", str "a", str "b", str "R", [], 1⟩
      [⟨str "r2", str "a", str "a", str "R", [], 1⟩]
      (str "target entity not found") rfl

/-! ## Reachable store states (C1, C4) -/

/-- Store states reachable from the empty in-memory store by arbitrary
`CreateEntity`, `CreateRelationship` and `ClearDatabase` calls (a failed
`CreateRelationship` leaves the store unchanged, which is covered by the
state already being reachable). -/
inductive Reachable : Store → Prop where
  | empty : Reachable ⟨[], []⟩
  | createEntity (s : Store) (e : Entity) : Reachable s → Reachable (dbCreateEntity s e)
  | createRelationship (s : Store) (r : Relationship) :
      Reachable s → Reachable (relStep s r)
  | clear (s : Store) : Reachable s → Reachable (dbClear s)

/-- Reachability restricted to `CreateRelationship` calls whose
relationship carries a non-empty id (every id the code derives is a
non-empty hex string, but the API itself accepts any record). -/
inductive ReachableNZ : Store → Prop where
  | empty : ReachableNZ ⟨[], []⟩
  | createEntity (s : Store) (e : Entity) : ReachableNZ s → ReachableNZ (dbCreateEntity s e)
  | createRelationship (s : Store) (r : Relationship) :
      r.id ≠ [] → ReachableNZ s → ReachableNZ (relStep s r)
  | clear (s : Store) : ReachableNZ s → ReachableNZ (dbClear s)

/-- The concrete entities and relationships used by the C4 counterexample:
a relationship upserted with the empty id `""` defeats the
`existingID != ""` found-sentinel, so a second upsert of the same
`(source, target, type)` triple duplicates the edge. -/
def c4EntityA : Entity := ⟨str "a", str "a", str "T", [], 1⟩

def c4EntityB : Entity := ⟨str "b", str "b", str "T", [], 1⟩

def c4RelEmptyID : Relationship := ⟨[], str "a", str "b", str "R", [], 1⟩

def c4RelX : Relationship := ⟨str "x", str "a", str "b", str "R", [], 1⟩

def c4Store : Store :=
  relStep (relStep (dbCreateEntity (dbCreateEntity ⟨[], []⟩ c4EntityA) c4EntityB)
    c4RelEmptyID) c4RelX

/-- C4 — counterexample: the edge-dedup invariant fails on a reachable
store.  Upserting a relationship with literal id `""` and then another
with the same `(source, target, type)` triple leaves two distinct stored
relationships sharing the triple (the `existingID != ""` sentinel treats
the first edge as "not found"). -/
theorem edge_dedup_counterexample :
    Reachable c4Store
    ∧ c4Store.relationships.length = 2
    ∧ (∃ p q, p ∈ c4Store.relationships ∧ q ∈ c4Store.relationships ∧ p ≠ q
        ∧ relTriple p.2 = relTriple q.2) := by
  refine ⟨?_, by decide, ?_⟩
  · exact Reachable.createRelationship _ c4RelX
      (Reachable.createRelationship _ c4RelEmptyID
        (Reachable.createEntity _ c4EntityB
          (Reachable.createEntity _ c4EntityA Reachable.empty)))
  · refine ⟨([], c4RelEmptyID), (str "x", c4RelX), by decide, by decide, by decide, by decide⟩

/-- The concrete store and batch of the C1 counterexample: the store holds
an edge keyed `"x"` with triple `a→b`; the batch merges into it and then
inserts a *different* triple `a→c` whose literal id is also `"x"`, which
overwrites the stored edge.  The second run of the same batch then
re-inserts the `a→b` edge under its own id, so the store grows. -/
def c1Store : Store :=
  ⟨[(str "a", ⟨str "a", str "a", str "T", [], 1⟩),
    (str "b", ⟨str "b", str "b", str "T", [], 1⟩),
    (str "c", ⟨str "c", str "c", str "T", [], 1⟩)],
   [(str "x", ⟨str "x", str "a", str "b", str "R", [], 1⟩)]⟩

def c1RelY : Relationship := ⟨str "y", str "a", str "b", str "R", [], 1⟩

def c1RelX : Relationship := ⟨str "x", str "a", str "c", str "R", [], 1⟩

/-- C1 — counterexample: upserting the same batch twice is *not* always
idempotent.  One run leaves one stored relationship, two runs leave two:
the batch's `a→c` insert under id `"x"` deletes the merged `a→b` edge
stored under the same key, and the second run resurrects `a→b` under id
`"y"`. -/
theorem upsert_idempotent_counterexample :
    applyBatch [] [c1RelY, c1RelX] (applyBatch [] [c1RelY, c1RelX] c1Store)
      ≠ applyBatch [] [c1RelY, c1RelX] c1Store
    ∧ (applyBatch [] [c1RelY, c1RelX] c1Store).relationships.length = 1
    ∧ (applyBatch [] [c1RelY, c1RelX]
        (applyBatch [] [c1RelY, c1RelX] c1Store)).relationships.length = 2 := by
  refine ⟨by decide, by decide, by decide⟩

/-! ## The edge-dedup invariant on reachable stores (C4 amended) -/

theorem mem_aset {α : Type} {p : GoStr × α} {k : GoStr} {v : α}
    {l : List (GoStr × α)} (h : p ∈ aset k v l) : p ∈ l ∨ p = (k, v) := by
  induction l with
  | nil => simp [aset] at h; simp [h]
  | cons kv r ih =>
    obtain ⟨k₀, v₀⟩ := kv
    by_cases h0 : k₀ = k
    · simp [aset, h0] at h
      rcases h with h | h
      · exact Or.inr (by simp [h, h0])
      · exact Or.inl (List.mem_cons_of_mem _ h)
    · simp [aset, h0] at h
      rcases h with h | h
      · exact Or.inl (by simp [h])
      · rcases ih h with hm | hm
        · exact Or.inl (List.mem_cons_of_mem _ hm)
        · exact Or.inr hm

theorem alookup_isSome_of_mem_keys {α : Type} {k : GoStr} {l : List (GoStr × α)}
    (h : k ∈ akeys l) : (alookup k l).isSome := by
  induction l with
  | nil => simp [akeys] at h
  | cons kv r ih =>
    obtain ⟨k₀, v₀⟩ := kv
    by_cases h0 : k₀ = k
    · simp [alookup, h0]
    · rw [akeys_cons, List.mem_cons] at h
      rcases h with h | h
      · exact absurd h.symm h0
      · simp [alookup, h0, ih h]

theorem akeys_aset_of_none {α : Type} {k : GoStr} {l : List (GoStr × α)} (v : α)
    (h : alookup k l = none) : akeys (aset k v l) = akeys l ++ [k] := by
  induction l with
  | nil => rfl
  | cons kv r ih =>
    obtain ⟨k₀, v₀⟩ := kv
    by_cases h0 : k₀ = k
    · simp [alookup, h0] at h
    · simp [alookup, h0] at h
      simp [aset, h0, akeys_cons, ih h]

theorem nodupKeys_aset {α : Type} {l : List (GoStr × α)} (k : GoStr) (v : α)
    (h : NodupKeys l) : NodupKeys (aset k v l) := by
  cases hk : alookup k l with
  | some w =>
    have : (alookup k l).isSome := by simp [hk]
    unfold NodupKeys
    rw [akeys_aset_of_isSome v this]
    exact h
  | none =>
    unfold NodupKeys
    rw [akeys_aset_of_none v hk]
    have hnot : k ∉ akeys l := by
      intro hm
      have := alookup_isSome_of_mem_keys hm
      rw [hk] at this
      simp at this
    refine List.Nodup.append h (by simp) ?_
    intro a ha hb
    simp at hb
    subst hb
    exact hnot ha

theorem length_aset_of_mem_keys {α : Type} {k : GoStr} {l : List (GoStr × α)} (v : α)
    (h : k ∈ akeys l) : (aset k v l).length = l.length := by
  induction l with
  | nil => simp [akeys] at h
  | cons kv r ih =>
    obtain ⟨k₀, v₀⟩ := kv
    by_cases h0 : k₀ = k
    · simp [aset, h0]
    · rw [akeys_cons, List.mem_cons] at h
      rcases h with h | h
      · exact absurd h.symm h0
      · simp [aset, h0, ih h]

/-- No two stored relationships share the same `(source, target, type)`
triple. -/
def TriplesDistinct (l : List (GoStr × Relationship)) : Prop :=
  l.Pairwise (fun p q => relTriple p.2 ≠ relTriple q.2)

theorem relTriple_mergeRel (ex r : Relationship) :
    relTriple (mergeRel ex r) = relTriple ex := rfl

theorem findMatchingRel_none {r : Relationship} {l : List (GoStr × Relationship)}
    (h : findMatchingRel r l = none) : ∀ p ∈ l, relTriple p.2 ≠ relTriple r := by
  intro p hp
  have := List.find?_eq_none.1 h p hp
  simpa using this

theorem findMatchingRel_some {r : Relationship} {l : List (GoStr × Relationship)}
    {k : GoStr} {ex : Relationship} (h : findMatchingRel r l = some (k, ex)) :
    (k, ex) ∈ l ∧ relTriple ex = relTriple r := by
  refine ⟨List.mem_of_find?_eq_some h, ?_⟩
  have := List.find?_some h
  simpa using this

theorem triplesDistinct_aset_fresh {l : List (GoStr × Relationship)}
    {k : GoStr} {v : Relationship}
    (hv : ∀ p ∈ l, relTriple p.2 ≠ relTriple v) (hl : TriplesDistinct l) :
    TriplesDistinct (aset k v l) := by
  induction l with
  | nil => simp [aset, TriplesDistinct]
  | cons kv r ih =>
    obtain ⟨k₀, v₀⟩ := kv
    rw [TriplesDistinct, List.pairwise_cons] at hl
    by_cases h0 : k₀ = k
    · show TriplesDistinct (if k₀ = k then (k₀, v) :: r else (k₀, v₀) :: aset k v r)
      rw [if_pos h0, TriplesDistinct, List.pairwise_cons]
      refine ⟨?_, hl.2⟩
      intro q hq
      exact (hv q (List.mem_cons_of_mem _ hq)).symm
    · show TriplesDistinct (if k₀ = k then (k₀, v) :: r else (k₀, v₀) :: aset k v r)
      rw [if_neg h0, TriplesDistinct, List.pairwise_cons]
      constructor
      · intro q hq
        rcases mem_aset hq with hm | hm
        · exact hl.1 q hm
        · rw [hm]
          exact hv (k₀, v₀) (List.mem_cons_self _ _)
      · exact ih (fun p hp => hv p (List.mem_cons_of_mem _ hp)) hl.2

theorem triplesDistinct_aset_same {l : List (GoStr × Relationship)}
    {k : GoStr} {ex v : Relationship}
    (hk : alookup k l = some ex) (ht : relTriple v = relTriple ex)
    (hl : TriplesDistinct l) : TriplesDistinct (aset k v l) := by
  induction l with
  | nil => simp [alookup] at hk
  | cons kv r ih =>
    obtain ⟨k₀, v₀⟩ := kv
    rw [TriplesDistinct, List.pairwise_cons] at hl
    by_cases h0 : k₀ = k
    · simp [alookup, h0] at hk
      show TriplesDistinct (if k₀ = k then (k₀, v) :: r else (k₀, v₀) :: aset k v r)
      rw [if_pos h0, TriplesDistinct, List.pairwise_cons]
      refine ⟨?_, hl.2⟩
      intro q hq
      show relTriple v ≠ relTriple q.2
      rw [ht, ← hk]
      exact hl.1 q hq
    · simp [alookup, h0] at hk
      show TriplesDistinct (if k₀ = k then (k₀, v) :: r else (k₀, v₀) :: aset k v r)
      rw [if_neg h0, TriplesDistinct, List.pairwise_cons]
      constructor
      · intro q hq
        rcases mem_aset hq with hm | hm
        · exact hl.1 q hm
        · rw [hm]
          show relTriple v₀ ≠ relTriple v
          rw [ht]
          exact hl.1 (k, ex) (alookup_mem hk)
      · exact ih hk hl.2

/-- The store-level relationship invariant maintained by the API under
non-empty relationship ids. -/
def RelWF (s : Store) : Prop :=
  NodupKeys s.relationships
  ∧ (∀ p ∈ s.relationships, p.1 ≠ ([] : GoStr))
  ∧ TriplesDistinct s.relationships

theorem dbCreateEntity_relationships (s : Store) (e : Entity) :
    (dbCreateEntity s e).relationships = s.relationships := by
  unfold dbCreateEntity
  cases alookup e.id s.entities <;> rfl

theorem dbCreateRelationship_merge_eq {s : Store} {r : Relationship}
    {k : GoStr} {ex : Relationship}
    (hsrc : (alookup r.source s.entities).isSome)
    (htgt : (alookup r.target s.entities).isSome)
    (hfind : findMatchingRel r s.relationships = some (k, ex)) (hk : k ≠ []) :
    dbCreateRelationship s r
      = .ok { s with relationships := aset k (mergeRel ex r) s.relationships } := by
  obtain ⟨a, ha⟩ := Option.isSome_iff_exists.1 hsrc
  obtain ⟨b, hb⟩ := Option.isSome_iff_exists.1 htgt
  unfold dbCreateRelationship
  rw [ha, hb, hfind]
  simp only [Option.isNone_some, Bool.false_eq_true, if_false]
  rw [if_pos hk]

theorem dbCreateRelationship_insert_eq {s : Store} {r : Relationship}
    (hsrc : (alookup r.source s.entities).isSome)
    (htgt : (alookup r.target s.entities).isSome)
    (hfind : findMatchingRel r s.relationships = none) :
    dbCreateRelationship s r
      = .ok { s with relationships := aset r.id r s.relationships } := by
  obtain ⟨a, ha⟩ := Option.isSome_iff_exists.1 hsrc
  obtain ⟨b, hb⟩ := Option.isSome_iff_exists.1 htgt
  unfold dbCreateRelationship
  rw [ha, hb, hfind]
  simp only [Option.isNone_some, Bool.false_eq_true, if_false]

theorem dbCreateRelationship_error_of_isNone {s : Store} {r : Relationship}
    (h : ¬((alookup r.source s.entities).isSome ∧ (alookup r.target s.entities).isSome)) :
    relStep s r = s := by
  unfold relStep
  cases hcr : dbCreateRelationship s r with
  | error e => rfl
  | ok s' =>
    exfalso
    unfold dbCreateRelationship at hcr
    cases ha : alookup r.source s.entities with
    | none => simp [ha] at hcr
    | some a =>
      cases hb : alookup r.target s.entities with
      | none => simp [ha, hb] at hcr
      | some b => exact h ⟨by rw [ha]; rfl, by rw [hb]; rfl⟩

theorem mem_keys_of_mem {α : Type} {p : GoStr × α} {l : List (GoStr × α)}
    (h : p ∈ l) : p.1 ∈ akeys l := List.mem_map.2 ⟨p, h, rfl⟩

theorem relWF_relStep {s : Store} {r : Relationship} (hwf : RelWF s)
    (hid : r.id ≠ []) : RelWF (relStep s r) := by
  by_cases hok : (alookup r.source s.entities).isSome ∧ (alookup r.target s.entities).isSome
  · obtain ⟨hsrc, htgt⟩ := hok
    cases hfind : findMatchingRel r s.relationships with
    | some p =>
      obtain ⟨k, ex⟩ := p
      obtain ⟨hmem, htr⟩ := findMatchingRel_some hfind
      have hk : k ≠ [] := hwf.2.1 (k, ex) hmem
      have heq := dbCreateRelationship_merge_eq hsrc htgt hfind hk
      unfold relStep
      rw [heq]
      refine ⟨nodupKeys_aset _ _ hwf.1, ?_, ?_⟩
      · intro p hp
        rcases mem_aset hp with hm | hm
        · exact hwf.2.1 p hm
        · rw [hm]
          exact hk
      · exact triplesDistinct_aset_same (alookup_of_mem_nodup hwf.1 hmem)
          (relTriple_mergeRel ex r) hwf.2.2
    | none =>
      have heq := dbCreateRelationship_insert_eq hsrc htgt hfind
      unfold relStep
      rw [heq]
      refine ⟨nodupKeys_aset _ _ hwf.1, ?_, ?_⟩
      · intro p hp
        rcases mem_aset hp with hm | hm
        · exact hwf.2.1 p hm
        · rw [hm]
          exact hid
      · exact triplesDistinct_aset_fresh (findMatchingRel_none hfind) hwf.2.2
  · rw [dbCreateRelationship_error_of_isNone hok]
    exact hwf

theorem relWF_of_reachableNZ {s : Store} (hs : ReachableNZ s) : RelWF s := by
  induction hs with
  | empty => exact ⟨by simp [NodupKeys, akeys], by simp, by simp [TriplesDistinct]⟩
  | createEntity s e _ ih =>
    refine ⟨?_, ?_, ?_⟩ <;> rw [dbCreateEntity_relationships]
    · exact ih.1
    · exact ih.2.1
    · exact ih.2.2
  | createRelationship s r hid _ ih => exact relWF_relStep ih hid
  | clear s _ _ =>
    exact ⟨by simp [dbClear, NodupKeys, akeys], by simp [dbClear],
      by simp [dbClear, TriplesDistinct]⟩

/-- C4 — amended: in every store state reachable from the empty store by
`CreateEntity`, `ClearDatabase` and `CreateRelationship` calls whose
relationship ids are non-empty, no two distinct stored relationships share
a `(source, target, type)` triple; and upserting a relationship matching
an existing edge's triple merges into that edge (keeping its key, its
record count, and adding nothing under the incoming id) even when the
literal incoming id differs from the stored one. -/
theorem edge_dedup_invariant (s : Store) (hs : ReachableNZ s) :
    TriplesDistinct s.relationships
    ∧ (∀ (r : Relationship) (k : GoStr) (ex : Relationship),
        r.id ≠ [] →
        (alookup r.source s.entities).isSome →
        (alookup r.target s.entities).isSome →
        findMatchingRel r s.relationships = some (k, ex) →
        dbCreateRelationship s r
          = .ok { s with relationships := aset k (mergeRel ex r) s.relationships }
        ∧ (aset k (mergeRel ex r) s.relationships).length = s.relationships.length
        ∧ (r.id ≠ k →
            alookup r.id (aset k (mergeRel ex r) s.relationships)
              = alookup r.id s.relationships)) := by
  have hwf := relWF_of_reachableNZ hs
  refine ⟨hwf.2.2, ?_⟩
  intro r k ex _ hsrc htgt hfind
  obtain ⟨hmem, _⟩ := findMatchingRel_some hfind
  have hk : k ≠ [] := hwf.2.1 (k, ex) hmem
  refine ⟨dbCreateRelationship_merge_eq hsrc htgt hfind hk, ?_, ?_⟩
  · exact length_aset_of_mem_keys _ (mem_keys_of_mem hmem)
  · intro hne
    exact alookup_aset_ne (fun hh => hne hh.symm) _ _

/-- The reachable store used by the amended-C4 witness: two entities and
one stored edge `a→b` keyed (and id-ed) `"x"`. -/
def c4WitnessStore : Store :=
  relStep (dbCreateEntity (dbCreateEntity ⟨[], []⟩ c4EntityA) c4EntityB) c4RelX

/-- Closed witness for the amended C4: the invariant holds on a concrete
reachable store, and a relationship with a different literal id `"y"` but
the same triple merges into the stored edge keyed `"x"`. -/
theorem edge_dedup_invariant_witness :
    TriplesDistinct c4WitnessStore.relationships
    ∧ dbCreateRelationship c4WitnessStore ⟨str "y", str "a", str "b", str "R", [], 1⟩
        = .ok { c4WitnessStore with
            relationships := aset (str "x")
              (mergeRel c4RelX ⟨str "y", str "a", str "b", str "R", [], 1⟩)
              c4WitnessStore.relationships } := by
  have hreach : ReachableNZ c4WitnessStore :=
    ReachableNZ.createRelationship _ c4RelX (by decide)
      (ReachableNZ.createEntity _ c4EntityB
        (ReachableNZ.createEntity _ c4EntityA ReachableNZ.empty))
  obtain ⟨h1, h2⟩ := edge_dedup_invariant c4WitnessStore hreach
  exact ⟨h1, (h2 ⟨str "y", str "a", str "b", str "R", [], 1⟩ (str "x") c4RelX
    (by decide) (by decide) (by decide) (by decide)).1⟩

/-! ## The extraction orchestrator (`src/internal/core/code_processor.go`) -/

/-- `graph.CodeFile` (the fields the orchestrator and analyzers read;
`Size` is the file's byte length, `LastModified` its RFC3339-formatted
modification time, kept abstract). -/
structure CodeFile where
  path : GoStr
  name : GoStr
  extension : GoStr
  content : GoStr
  language : GoStr
  size : Nat
  lastModified : GoStr
deriving DecidableEq, Repr

mutual
/-- A file-system node seen by the directory walk: a file with content and
modification time, or a directory with children (visited in list order,
modelling `WalkDir`'s lexical order). -/
inductive FSTree where
  | file (name content mtime : GoStr)
  | dir (name : GoStr) (children : FSForest)
/-- The ordered children of a directory. -/
inductive FSForest where
  | nil
  | cons (t : FSTree) (f : FSForest)
end

/-- The fixed `supportedExtensions` set of `NewCodeProcessor`. -/
def supportedExtensions : List GoStr :=
  [str ".ts", str ".js", str ".tsx", str ".jsx", str ".py", str ".java",
   str ".cpp", str ".c", str ".h", str ".hpp", str ".cs", str ".go",
   str ".rs", str ".rb", str ".php", str ".json", str ".yaml", str ".yml",
   str ".xml", str ".md", str ".txt", str ".sql"]

/-- The fixed `languageMap` of `NewCodeProcessor` (note: `.txt` is
supported but has no entry here). -/
def languageMap : List (GoStr × GoStr) :=
  [(str ".ts", str "typescript"), (str ".tsx", str "typescript"),
   (str ".js", str "javascript"), (str ".jsx", str "javascript"),
   (str ".py", str "python"), (str ".java", str "java"),
   (str ".cpp", str "cpp"), (str ".c", str "c"), (str ".h", str "c"),
   (str ".hpp", str "cpp"), (str ".cs", str "csharp"), (str ".go", str "go"),
   (str ".rs", str "rust"), (str ".rb", str "ruby"), (str ".php", str "php"),
   (str ".json", str "json"), (str ".yaml", str "yaml"), (str ".yml", str "yaml"),
   (str ".xml", str "xml"), (str ".md", str "markdown"), (str ".sql", str "sql")]

/-- The fixed `skipDirs` set of `shouldSkipDirectory`. -/
def skipDirs : List GoStr :=
  [str "node_modules", str ".git", str ".svn", str "dist", str "build",
   str "out", str "target", str "bin", str "obj", str ".vscode", str ".idea",
   str "__pycache__", str "coverage", str ".nyc_output", str "tmp",
   str "temp", str "logs", str "vendor"]

/-- `shouldSkipDirectory`: `.` is never skipped; otherwise the fixed set
plus any name beginning with `.`. -/
def shouldSkipDirectory (dirName : GoStr) : Bool :=
  if dirName = str "." then false
  else
    skipDirs.contains dirName
      || (match dirName with
          | b :: _ => b = dotByte
          | [] => false)

/-- `filepath.Base` on clean slash-separated paths: the part after the
last slash. -/
def baseName (p : GoStr) : GoStr :=
  (p.reverse.takeWhile (fun b => b ≠ slashByte)).reverse

/-- `filepath.Ext`: the suffix of the base name starting at its last dot,
or empty when there is none. -/
def extOfBase : GoStr → GoStr
  | [] => []
  | c :: rest =>
    let e := extOfBase rest
    if e ≠ [] then e
    else if c = dotByte then c :: rest
    else []

/-- `filepath.Ext` of a path. -/
def goExt (p : GoStr) : GoStr := extOfBase (baseName p)

/-- `filepath.Dir` on clean slash-separated paths: everything before the
last slash; `.` when there is no slash, `/` when the result is the root. -/
def goDir (p : GoStr) : GoStr :=
  let rest := p.reverse.dropWhile (fun b => b ≠ slashByte)
  match rest with
  | [] => str "."
  | _ :: dirRev => if dirRev = [] then str "/" else dirRev.reverse

/-- The scan loop of `strings.Contains`: does some suffix of the haystack
start with the needle? -/
def containsFrom (sub : GoStr) : GoStr → Bool
  | [] => sub.isPrefixOf []
  | a :: rest => sub.isPrefixOf (a :: rest) || containsFrom sub rest

/-- `strings.Contains s sub`. -/
def goContains (s sub : GoStr) : Bool := containsFrom sub s

/-- `strings.TrimPrefix`. -/
def goTrimPre (s pre : GoStr) : GoStr :=
  if pre.isPrefixOf s then s.drop pre.length else s

/-- The extension → language assignment of `createCodeFile`: an unmapped
(or empty-mapped) extension becomes `"unknown"`. -/
def getLanguage (ext : GoStr) : GoStr :=
  match alookup ext languageMap with
  | some l => l
  | none => str "unknown"

/-- `createCodeFile` without its I/O (content and modification time come
from the tree node; `Size` is the content's byte length). -/
def mkCodeFile (path content mtime : GoStr) : CodeFile :=
  let ext := goToLower (goExt path)
  { path := path
    name := baseName path
    extension := ext
    content := content
    language := getLanguage ext
    size := content.length
    lastModified := mtime }

mutual
/-- The walk over a directory's children.  The root directory itself is
visited with `path == dirPath`, where the skip test is bypassed, so the
walk of the root is exactly the walk of its children. -/
def scanForest (parent : GoStr) : FSForest → List CodeFile
  | .nil => []
  | .cons t f => scanTreeChild parent t ++ scanForest parent f

/-- One non-root walk entry: directories are pruned by
`shouldSkipDirectory` on their name; files are kept when their lowercased
extension is supported. -/
def scanTreeChild (parent : GoStr) : FSTree → List CodeFile
  | .file name content mtime =>
    let path := parent ++ slashByte :: name
    if supportedExtensions.contains (goToLower (goExt path)) then
      [mkCodeFile path content mtime]
    else []
  | .dir name children =>
    if shouldSkipDirectory name then []
    else scanForest (parent ++ slashByte :: name) children
end

/-- `scanDirectory`: walk from the root path over the root's children (the
root itself is never skip-tested). -/
def scanDirectory (dirPath : GoStr) (root : FSForest) : List CodeFile :=
  scanForest dirPath root

/-- The ascent loop of `extractDirectories`: from a directory path, the
chain of enclosing directories, stopping at `"."`, `"/"` or `""`.  The
loop is fuel-bounded for structural recursion; `length + 1` fuel always
suffices because each `Dir` step yields a strictly shorter path or a
terminal one. -/
def dirChainAux : Nat → GoStr → List GoStr
  | 0, _ => []
  | fuel + 1, d =>
    if d = str "." ∨ d = str "/" ∨ d = [] then []
    else d :: dirChainAux fuel (goDir d)

def dirChain (d : GoStr) : List GoStr := dirChainAux (d.length + 1) d

/-- `extractDirectories`: the set of enclosing directories of all files
(the Go set's iteration order is unspecified; the model fixes one). -/
def extractDirectories (files : List CodeFile) : List GoStr :=
  ((files.map (fun f => dirChain (goDir f.path))).join).dedup

/-- `createDirectoryEntity`: label is the base name (or `root`), with
`path`, `relativePath` and `fullPath` properties. -/
def createDirectoryEntity (dirPath rootPath : GoStr) : Entity :=
  let relativePath := goTrimPre (goTrimPre dirPath rootPath) (str "/")
  let base := baseName dirPath
  let base := if base = str "." ∨ base = [] then str "root" else base
  graph.CreateEntity base (str "DIRECTORY")
    [(str "path", .s dirPath), (str "relativePath", .s relativePath),
     (str "fullPath", .s dirPath)]

/-- `createFileEntity`: the file entity handed to the analyzers. -/
def createFileEntity (file : CodeFile) : Entity :=
  graph.CreateEntity file.name (str "FILE")
    [(str "path", .s file.path), (str "extension", .s file.extension),
     (str "language", .s file.language), (str "size", .n file.size),
     (str "lastModified", .s file.lastModified),
     (str "lineCount", .n (file.content.count 10 + 1))]

/-- The closed set of analyzers registered at startup. -/
inductive AnalyzerId where
  | goA
  | typescriptA
  | pythonA
  | javaA
  | jsonA
  | genericA
deriving DecidableEq, Repr

/-- `RegisterAnalyzer`: index the analyzer under each supported language
tag (last registration per tag wins). -/
def registerAnalyzer (reg : List (GoStr × AnalyzerId)) (langs : List GoStr)
    (a : AnalyzerId) : List (GoStr × AnalyzerId) :=
  langs.foldl (fun m lang => aset lang a m) reg

/-- `NewAnalyzerRegistry`: registration of the six analyzers, in source
order, under their `SupportedLanguages`. -/
def newAnalyzerRegistry : List (GoStr × AnalyzerId) :=
  registerAnalyzer
    (registerAnalyzer
      (registerAnalyzer
        (registerAnalyzer
          (registerAnalyzer
            (registerAnalyzer [] [str "go"] .goA)
            [str "typescript", str "javascript"] .typescriptA)
          [str "python"] .pythonA)
        [str "java"] .javaA)
      [str "json"] .jsonA)
    [str "unknown"] .genericA

/-- `AnalyzerRegistry.GetAnalyzer`: exact tag match, generic fallback. -/
def getAnalyzer (language : GoStr) : AnalyzerId :=
  match alookup language newAnalyzerRegistry with
  | some a => a
  | none => .genericA

/-- `GenericAnalyzer.Analyze`: the file entity alone, no relationships. -/
def genericAnalyze (_ : CodeFile) (fileEntity : Entity) :
    List Entity × List Relationship :=
  ([fileEntity], [])

/-- The `CodeProcessor`, carrying the analyzer dispatch table (the model
of the `LanguageAnalyzer` interface: one analysis function per registered
analyzer). -/
structure CodeProcessor where
  impl : AnalyzerId → CodeFile → Entity → List Entity × List Relationship

/-- `analyzeFile`: build the file entity, resolve the analyzer for the
file's language, invoke it. -/
def analyzeFile (cp : CodeProcessor) (file : CodeFile) :
    List Entity × List Relationship :=
  cp.impl (getAnalyzer file.language) file (createFileEntity file)

/-- `createFileDirectoryRelationships`: scan all entities for the *last*
directory entity whose `path` property equals the file's directory and the
*last* file entity whose `path` equals the file's path (the Go loop
overwrites on every match), and connect them with a `CONTAINS` edge. -/
def createFileDirectoryRelationships (file : CodeFile)
    (allEntities : List Entity) : List Relationship :=
  let fileDir := goDir file.path
  let dirEntity := allEntities.reverse.find? (fun e =>
    e.type == str "DIRECTORY"
      && match alookup (str "path") e.properties with
         | some (PValue.s p) => p == fileDir
         | _ => false)
  let fileEntity := allEntities.reverse.find? (fun e =>
    e.type == str "FILE"
      && match alookup (str "path") e.properties with
         | some (PValue.s p) => p == file.path
         | _ => false)
  match dirEntity, fileEntity with
  | some d, some f => [graph.CreateRelationship d.id f.id (str "CONTAINS") []]
  | _, _ => []

/-- `createImportRelationships`: for every `IMPORT` entity with a string
`source` property, the first `FILE`/`MODULE` entity whose label contains
the source and whose `path` property also contains it gets a `REFERENCES`
edge. -/
def createImportRelationships (entities : List Entity) : List Relationship :=
  let importEntities := entities.filter (fun e => e.type == str "IMPORT")
  let moduleEntities := entities.filter (fun e =>
    e.type == str "FILE" || e.type == str "MODULE")
  (importEntities.map (fun ie =>
    match alookup (str "source") ie.properties with
    | some (PValue.s source) =>
      match moduleEntities.find? (fun me =>
        goContains me.label source
          && match alookup (str "path") me.properties with
             | some (PValue.s p) => goContains p source
             | _ => false) with
      | some me => [graph.CreateRelationship ie.id me.id (str "REFERENCES") []]
      | none => []
    | _ => [])).join

/-- `AnalyzeCodebase` (file reads replaced by tree contents; a file's
analyzer is total in the model, so the error-skip branch is not taken):
directory scaffold entities first, then per-file analysis with
file→directory `CONTAINS` edges keyed by exact path match against the
entities accumulated so far, then import→module `REFERENCES` edges. -/
def analyzeCodebase (cp : CodeProcessor) (rootPath : GoStr) (root : FSForest) :
    List Entity × List Relationship :=
  let files := scanDirectory rootPath root
  let dirEntities := (extractDirectories files).map
    (fun d => createDirectoryEntity d rootPath)
  let acc := files.foldl
    (fun (acc : List Entity × List Relationship) file =>
      let res := analyzeFile cp file
      let allEntities := acc.1 ++ res.1
      let fileRelationships := createFileDirectoryRelationships file allEntities
      (allEntities, acc.2 ++ res.2 ++ fileRelationships))
    (dirEntities, [])
  (acc.1, acc.2 ++ createImportRelationships acc.1)

/-! ## Directory scaffold (C7) -/

/-- The walk tree of the C7 scenario: root `a` containing `b/x.go` and
`y.go`. -/
def c7Forest : FSForest :=
  .cons (.dir (str "b") (.cons (.file (str "x.go") [] []) .nil))
    (.cons (.file (str "y.go") [] []) .nil)

/-- A processor whose every dispatch slot is the generic (identity)
analyzer; the C7 files are empty, for which the per-file analysis
contributes exactly the file entity and no relationships. -/
def c7CP : CodeProcessor := ⟨fun _ => genericAnalyze⟩

def c7FileX : CodeFile := mkCodeFile (str "a/b/x.go") [] []

def c7FileY : CodeFile := mkCodeFile (str "a/y.go") [] []

def c7DirA : Entity := createDirectoryEntity (str "a") (str "a")

def c7DirAB : Entity := createDirectoryEntity (str "a/b") (str "a")

/-- C7 — counterexample: `AnalyzeCodebase` creates *no* directory→
subdirectory `contains` edge.  On the claim's own scenario the output
batch holds directory entities for `a` and `a/b` (so the chain includes
the walk root), but no relationship from `a` to `a/b` of any kind — the
only `contains` edges are directory→file. -/
theorem directory_scaffold_counterexample :
    (analyzeCodebase c7CP (str "a") c7Forest).2.filter
        (fun rel => rel.source == c7DirA.id && rel.target == c7DirAB.id) = []
    ∧ c7DirA ∈ (analyzeCodebase c7CP (str "a") c7Forest).1
    ∧ c7DirAB ∈ (analyzeCodebase c7CP (str "a") c7Forest).1 := by
  refine ⟨by decide, by decide, by decide⟩

/-- C7 — amended: on files `a/b/x.go`, `a/y.go` under walk root `a`, for
any analyzer dispatch that returns exactly the file entity on these files
(what the registered Go analyzer does for empty files), the batch contains
directory entities for `a` and `a/b` (the chain ascends to the `.`/`/`
sentinels, so it *includes* the named relative walk root), `contains`
edges `a/b→x.go` and `a→y.go`, and no edge at all from `a` to `a/b` —
the scaffold creates only directory→file containment. -/
theorem directory_scaffold (cp : CodeProcessor)
    (hx : analyzeFile cp c7FileX = ([createFileEntity c7FileX], []))
    (hy : analyzeFile cp c7FileY = ([createFileEntity c7FileY], [])) :
    c7DirA ∈ (analyzeCodebase cp (str "a") c7Forest).1
    ∧ c7DirAB ∈ (analyzeCodebase cp (str "a") c7Forest).1
    ∧ graph.CreateRelationship c7DirAB.id (createFileEntity c7FileX).id
        (str "CONTAINS") [] ∈ (analyzeCodebase cp (str "a") c7Forest).2
    ∧ graph.CreateRelationship c7DirA.id (createFileEntity c7FileY).id
        (str "CONTAINS") [] ∈ (analyzeCodebase cp (str "a") c7Forest).2
    ∧ (analyzeCodebase cp (str "a") c7Forest).2.filter
        (fun rel => rel.source == c7DirA.id && rel.target == c7DirAB.id) = [] := by
  have hres : analyzeCodebase cp (str "a") c7Forest
      = ([c7DirAB, c7DirA, createFileEntity c7FileX, createFileEntity c7FileY],
         [graph.CreateRelationship c7DirAB.id (createFileEntity c7FileX).id
            (str "CONTAINS") [],
          graph.CreateRelationship c7DirA.id (createFileEntity c7FileY).id
            (str "CONTAINS") []]) := by
    unfold analyzeCodebase
    rw [show scanDirectory (str "a") c7Forest = [c7FileX, c7FileY] from rfl]
    simp only [List.foldl_cons, List.foldl_nil, hx, hy]
    decide
  rw [hres]
  refine ⟨by decide, by decide, by decide, by decide, by decide⟩

/-- Closed witness for the amended C7, at the all-generic dispatch (whose
per-file analysis on these files is definitionally the hypothesis). -/
theorem directory_scaffold_witness :
    c7DirA ∈ (analyzeCodebase c7CP (str "a") c7Forest).1
    ∧ c7DirAB ∈ (analyzeCodebase c7CP (str "a") c7Forest).1
    ∧ graph.CreateRelationship c7DirAB.id (createFileEntity c7FileX).id
        (str "CONTAINS") [] ∈ (analyzeCodebase c7CP (str "a") c7Forest).2
    ∧ graph.CreateRelationship c7DirA.id (createFileEntity c7FileY).id
        (str "CONTAINS") [] ∈ (analyzeCodebase c7CP (str "a") c7Forest).2
    ∧ (analyzeCodebase c7CP (str "a") c7Forest).2.filter
        (fun rel => rel.source == c7DirA.id && rel.target == c7DirAB.id) = [] :=
  directory_scaffold c7CP rfl rfl

/-! ## Exclusion and fallback (C8, C9) -/

/-- The path of a file named `nm` under `root` through intermediate
directories `dirs`. -/
def pathUnder (root : GoStr) (dirs : List GoStr) (nm : GoStr) : GoStr :=
  dirs.foldl (fun acc d => acc ++ slashByte :: d) root ++ slashByte :: nm

mutual
/-- Every file produced by the walk sits under a chain of intermediate
directories, none of which is skippable, and carries a supported
(lowercased) extension. -/
theorem scanForest_shape (parent : GoStr) (forest : FSForest) :
    ∀ f ∈ scanForest parent forest,
      ∃ dirs nm, f.path = pathUnder parent dirs nm
        ∧ (∀ d ∈ dirs, shouldSkipDirectory d = false)
        ∧ f.extension = goToLower (goExt f.path)
        ∧ supportedExtensions.contains f.extension = true := by
  intro f hf
  cases forest with
  | nil => simp [scanForest] at hf
  | cons t rest =>
    rw [show scanForest parent (.cons t rest)
      = scanTreeChild parent t ++ scanForest parent rest from rfl,
      List.mem_append] at hf
    rcases hf with hf | hf
    · exact scanTreeChild_shape parent t f hf
    · exact scanForest_shape parent rest f hf

theorem scanTreeChild_shape (parent : GoStr) (t : FSTree) :
    ∀ f ∈ scanTreeChild parent t,
      ∃ dirs nm, f.path = pathUnder parent dirs nm
        ∧ (∀ d ∈ dirs, shouldSkipDirectory d = false)
        ∧ f.extension = goToLower (goExt f.path)
        ∧ supportedExtensions.contains f.extension = true := by
  intro f hf
  cases t with
  | file name content mtime =>
    by_cases hsup : supportedExtensions.contains
        (goToLower (goExt (parent ++ slashByte :: name))) = true
    · rw [show scanTreeChild parent (.file name content mtime)
        = if supportedExtensions.contains (goToLower (goExt (parent ++ slashByte :: name)))
          then [mkCodeFile (parent ++ slashByte :: name) content mtime]
          else [] from rfl, if_pos hsup, List.mem_singleton] at hf
      subst hf
      exact ⟨[], name, rfl, by simp, rfl, hsup⟩
    · rw [show scanTreeChild parent (.file name content mtime)
        = if supportedExtensions.contains (goToLower (goExt (parent ++ slashByte :: name)))
          then [mkCodeFile (parent ++ slashByte :: name) content mtime]
          else [] from rfl, if_neg hsup] at hf
      simp at hf
  | dir name children =>
    by_cases hskip : shouldSkipDirectory name = true
    · rw [show scanTreeChild parent (.dir name children)
        = if shouldSkipDirectory name then []
          else scanForest (parent ++ slashByte :: name) children from rfl,
        if_pos hskip] at hf
      simp at hf
    · rw [show scanTreeChild parent (.dir name children)
        = if shouldSkipDirectory name then []
          else scanForest (parent ++ slashByte :: name) children from rfl,
        if_neg hskip] at hf
      obtain ⟨dirs, nm, hpath, hun, hext, hsup⟩ :=
        scanForest_shape (parent ++ slashByte :: name) children f hf
      refine ⟨name :: dirs, nm, ?_, ?_, hext, hsup⟩
      · rw [hpath]
        rfl
      · intro d hd
        rcases List.mem_cons.1 hd with rfl | hd
        · exact Bool.not_eq_true _ ▸ (by simpa using hskip)
        · exact hun d hd
end

/-- C8 — Exclusion correctness: every file in the scan output lies under a
chain of non-excluded directories only (so nothing under an excluded or
dot-named directory strictly below the root is ever present, regardless of
extension); an excluded directory is pruned wholesale, not recursed into;
the walk root itself is never skip-tested, so files directly under any
root path — even one named `node_modules` — survive; and the exclusion
test covers the fixed set and every dot-prefixed name other than `.`. -/
theorem exclusion_correctness :
    (∀ (parent : GoStr) (forest : FSForest) (f : CodeFile),
      f ∈ scanDirectory parent forest →
      ∃ dirs nm, f.path = pathUnder parent dirs nm
        ∧ ∀ d ∈ dirs, shouldSkipDirectory d = false)
    ∧ (∀ (parent name : GoStr) (children : FSForest) (rest : FSForest),
        shouldSkipDirectory name = true →
        scanForest parent (.cons (.dir name children) rest) = scanForest parent rest)
    ∧ (∀ (rootPath name content mtime : GoStr),
        supportedExtensions.contains (goToLower (goExt (rootPath ++ slashByte :: name)))
          = true →
        scanDirectory rootPath (.cons (.file name content mtime) .nil)
          = [mkCodeFile (rootPath ++ slashByte :: name) content mtime])
    ∧ shouldSkipDirectory (str "node_modules") = true
    ∧ (∀ t : GoStr, dotByte :: t ≠ str "." → shouldSkipDirectory (dotByte :: t) = true) := by
  refine ⟨?_, ?_, ?_, by decide, ?_⟩
  · intro parent forest f hf
    obtain ⟨dirs, nm, hpath, hun, _, _⟩ := scanForest_shape parent forest f hf
    exact ⟨dirs, nm, hpath, hun⟩
  · intro parent name children rest hskip
    rw [show scanForest parent (.cons (.dir name children) rest)
      = scanTreeChild parent (.dir name children) ++ scanForest parent rest from rfl,
      show scanTreeChild parent (.dir name children)
      = if shouldSkipDirectory name then []
        else scanForest (parent ++ slashByte :: name) children from rfl,
      if_pos hskip, List.nil_append]
  · intro rootPath name content mtime hsup
    unfold scanDirectory
    rw [show scanForest rootPath (.cons (.file name content mtime) .nil)
      = scanTreeChild rootPath (.file name content mtime) ++ scanForest rootPath .nil
      from rfl,
      show scanTreeChild rootPath (.file name content mtime)
      = if supportedExtensions.contains (goToLower (goExt (rootPath ++ slashByte :: name)))
        then [mkCodeFile (rootPath ++ slashByte :: name) content mtime]
        else [] from rfl, if_pos hsup]
    rfl
  · intro t hne
    unfold shouldSkipDirectory
    rw [if_neg hne]
    simp

/-- Closed witness for C8: a `m.go` under an excluded `node_modules`
directory is absent from the scan while the sibling survives; a file
directly under a walk root *named* `node_modules` is kept; and the
dot-prefix rule fires on `.git`. -/
theorem exclusion_correctness_witness :
    (∃ dirs nm,
      (mkCodeFile (str "r/m.go") [] []).path = pathUnder (str "r") dirs nm
        ∧ ∀ d ∈ dirs, shouldSkipDirectory d = false)
    ∧ scanForest (str "r")
        (.cons (.dir (str "node_modules") (.cons (.file (str "hidden.go") [] []) .nil))
          .nil)
      = scanForest (str "r") .nil
    ∧ scanDirectory (str "node_modules") (.cons (.file (str "m.go") [] []) .nil)
      = [mkCodeFile (str "node_modules/m.go") [] []]
    ∧ shouldSkipDirectory (str "node_modules") = true
    ∧ shouldSkipDirectory (str ".git") = true := by
  refine ⟨?_, ?_, ?_, ?_, ?_⟩
  · exact exclusion_correctness.1 (str "r")
      (.cons (.file (str "m.go") [] []) .nil) (mkCodeFile (str "r/m.go") [] [])
      (by decide)
  · exact exclusion_correctness.2.1 (str "r") (str "node_modules")
      (.cons (.file (str "hidden.go") [] []) .nil) .nil (by decide)
  · exact exclusion_correctness.2.2.1 (str "node_modules") (str "m.go") [] []
      (by decide)
  · exact exclusion_correctness.2.2.2.1
  · exact exclusion_correctness.2.2.2.2 (str "git" ) (by decide)

/-- C9 — Unknown-language fallback: a file with an unsupported extension
is dropped by the scan filter (it never reaches an analyzer — every
scanned file's extension is in the supported set); a supported extension
absent from the language table yields language `"unknown"`; the registry
resolves `"unknown"` to the generic analyzer (it is even registered, not
just the fallback); and the generic analysis returns exactly the passed
file entity — identity untouched — and no relationships. -/
theorem unknown_language_fallback :
    (∀ (parent name content mtime : GoStr) (rest : FSForest),
      supportedExtensions.contains (goToLower (goExt (parent ++ slashByte :: name)))
        = false →
      scanForest parent (.cons (.file name content mtime) rest)
        = scanForest parent rest)
    ∧ (∀ (parent : GoStr) (forest : FSForest) (f : CodeFile),
        f ∈ scanDirectory parent forest →
        supportedExtensions.contains f.extension = true)
    ∧ (∀ (path content mtime : GoStr),
        alookup (goToLower (goExt path)) languageMap = none →
        (mkCodeFile path content mtime).language = str "unknown")
    ∧ supportedExtensions.contains (str ".txt") = true
    ∧ alookup (str ".txt") languageMap = none
    ∧ getAnalyzer (str "unknown") = AnalyzerId.genericA
    ∧ (∀ (file : CodeFile) (fileEntity : Entity),
        genericAnalyze file fileEntity = ([fileEntity], [])) := by
  refine ⟨?_, ?_, ?_, by decide, by decide, by decide, fun _ _ => rfl⟩
  · intro parent name content mtime rest hsup
    rw [show scanForest parent (.cons (.file name content mtime) rest)
      = scanTreeChild parent (.file name content mtime) ++ scanForest parent rest
      from rfl,
      show scanTreeChild parent (.file name content mtime)
      = if supportedExtensions.contains (goToLower (goExt (parent ++ slashByte :: name)))
        then [mkCodeFile (parent ++ slashByte :: name) content mtime]
        else [] from rfl]
    rw [show (supportedExtensions.contains
      (goToLower (goExt (parent ++ slashByte :: name)))) = false from hsup]
    rfl
  · intro parent forest f hf
    obtain ⟨_, _, _, _, _, hsup⟩ := scanForest_shape parent forest f hf
    exact hsup
  · intro path content mtime hnone
    show getLanguage (goToLower (goExt path)) = str "unknown"
    unfold getLanguage
    rw [hnone]

/-- Closed witness for C9: a `.dat` file is dropped by the scan, a `.txt`
file is scanned with language `unknown`, and the generic analysis of it
yields exactly its file entity. -/
theorem unknown_language_fallback_witness :
    scanForest (str "r") (.cons (.file (str "a.dat") [] []) .nil)
      = scanForest (str "r") .nil
    ∧ supportedExtensions.contains (mkCodeFile (str "r/n.txt") [] []).extension = true
    ∧ (mkCodeFile (str "r/n.txt") [] []).language = str "unknown"
    ∧ getAnalyzer (str "unknown") = AnalyzerId.genericA
    ∧ genericAnalyze (mkCodeFile (str "r/n.txt") [] [])
        (createFileEntity (mkCodeFile (str "r/n.txt") [] []))
      = ([createFileEntity (mkCodeFile (str "r/n.txt") [] [])], []) := by
  refine ⟨?_, ?_, ?_, ?_, ?_⟩
  · exact unknown_language_fallback.1 (str "r") (str "a.dat") [] [] .nil (by decide)
  · exact unknown_language_fallback.2.1 (str "r")
      (.cons (.file (str "n.txt") [] []) .nil) (mkCodeFile (str "r/n.txt") [] [])
      (by decide)
  · exact unknown_language_fallback.2.2.1 (str "r/n.txt") [] [] (by decide)
  · exact unknown_language_fallback.2.2.2.2.2.1
  · exact unknown_language_fallback.2.2.2.2.2.2 (mkCodeFile (str "r/n.txt") [] [])
      (createFileEntity (mkCodeFile (str "r/n.txt") [] []))

/-! ## Idempotence of the entity phase (towards amended C1) -/

/-- Rewinding the values of a duplicate-free map `p` inside a merge result
and re-merging `B` restores the merge result: every key of `p` either gets
re-overwritten by `B` or was never touched after `p` set it. -/
theorem mergeProps_rewind (B : PropMap) :
    ∀ (p c : PropMap), NodupKeys p →
      (∀ kv ∈ p, (alookup kv.1 c).isSome
        ∧ ((alookup kv.1 B).isSome ∨ alookup kv.1 c = some kv.2)) →
      mergeProps (mergeProps c p) B = mergeProps c B := by
  intro p
  induction p with
  | nil => intro c _ _; rfl
  | cons kv p' ih =>
    intro c hnd hkv
    obtain ⟨k, v⟩ := kv
    rw [mergeProps_cons]
    have hnd' : NodupKeys p' := (nodupKeys_cons.1 hnd).2
    have hstep : mergeProps (mergeProps (aset k v c) p') B
        = mergeProps (aset k v c) B := by
      apply ih (aset k v c) hnd'
      intro kv' hkv'
      have hne : k ≠ kv'.1 := by
        intro hh
        exact (nodupKeys_cons.1 hnd).1 (hh ▸ mem_keys_of_mem hkv')
      obtain ⟨hc, hB⟩ := hkv kv' (List.mem_cons_of_mem _ hkv')
      refine ⟨alookup_isSome_aset _ _ _ _ hc, ?_⟩
      rcases hB with hB | hB
      · exact Or.inl hB
      · exact Or.inr (by rw [alookup_aset_ne hne, hB])
    rw [hstep]
    obtain ⟨hc, hB⟩ := hkv (k, v) (List.mem_cons_self _ _)
    rcases hB with hB | hB
    · exact mergeProps_aset_overwritten c v hc hB
    · rw [aset_noop hB]

/-- The property-refold identity for a class whose first member was stored
literally: rewinding its own properties and replaying the class restores
the merge result. -/
theorem mergeProps_class_refold {p : PropMap} (B : PropMap)
    (hnd : NodupKeys p) :
    mergeProps (mergeProps (mergeProps p B) p) B = mergeProps p B := by
  have h := mergeProps_rewind B p (mergeProps p B) hnd ?_
  · rw [h]
    exact mergeProps_refold B p
  · intro kv hkv
    have hp : alookup kv.1 p = some kv.2 := alookup_of_mem_nodup hnd hkv
    refine ⟨?_, ?_⟩
    · exact alookup_isSome_mergeProps _ _ _ (by rw [hp]; rfl)
    · cases hB : alookup kv.1 B with
      | some w => exact Or.inl rfl
      | none => exact Or.inr (by rw [alookup_mergeProps_of_notin _ _ _ hB, hp])

/-- Folding a class of same-id entities into a stored record. -/
def entFold (x : Entity) (L : List Entity) : Entity := L.foldl mergeEntity x

/-- The label after a merge fold: the last label in the class (or the
stored one for an empty class). -/
def lastLabel (d : GoStr) (L : List Entity) : GoStr := L.foldl (fun _ e => e.label) d

/-- The confidence after a merge fold: the running maximum. -/
def maxConf (c : Rat) (L : List Entity) : Rat :=
  L.foldl (fun a e => if a < e.confidence then e.confidence else a) c

/-- The concatenated incoming property batches of a class. -/
def flatProps (L : List Entity) : PropMap := (L.map (·.properties)).join

/-- Normal form of the entity merge fold. -/
theorem entFold_eq (L : List Entity) (x : Entity) :
    entFold x L
      = { x with
          label := lastLabel x.label L
          confidence := maxConf x.confidence L
          properties := mergeProps x.properties (flatProps L) } := by
  induction L generalizing x with
  | nil => rfl
  | cons e L' ih =>
    show entFold (mergeEntity x e) L' = _
    rw [ih]
    show ({ x with
        label := lastLabel x.label (e :: L')
        confidence := maxConf x.confidence (e :: L')
        properties := mergeProps (mergeProps x.properties e.properties) (flatProps L') }
      : Entity) = _
    rw [← mergeProps_append]
    rfl

theorem le_maxConf (c : Rat) (L : List Entity) : c ≤ maxConf c L := by
  induction L generalizing c with
  | nil => exact le_refl c
  | cons e L' ih =>
    show c ≤ maxConf (if c < e.confidence then e.confidence else c) L'
    refine le_trans ?_ (ih _)
    by_cases h : c < e.confidence
    · rw [if_pos h]; exact le_of_lt h
    · rw [if_neg h]

theorem mem_le_maxConf {c : Rat} {L : List Entity} :
    ∀ e ∈ L, e.confidence ≤ maxConf c L := by
  induction L generalizing c with
  | nil => intro e he; simp at he
  | cons e₀ L' ih =>
    intro e he
    rcases List.mem_cons.1 he with rfl | he'
    · show e.confidence ≤ maxConf (if c < e.confidence then e.confidence else c) L'
      refine le_trans ?_ (le_maxConf _ _)
      by_cases h : c < e.confidence
      · rw [if_pos h]
      · rw [if_neg h]; exact le_of_not_lt h
    · exact ih e he'

theorem maxConf_absorb {a : Rat} {L : List Entity}
    (h : ∀ e ∈ L, e.confidence ≤ a) : maxConf a L = a := by
  induction L with
  | nil => rfl
  | cons e L' ih =>
    show maxConf (if a < e.confidence then e.confidence else a) L' = a
    rw [if_neg (not_lt.2 (h e (List.mem_cons_self _ _)))]
    exact ih (fun x hx => h x (List.mem_cons_of_mem _ hx))

theorem maxConf_refold (c : Rat) (L : List Entity) :
    maxConf (maxConf c L) L = maxConf c L :=
  maxConf_absorb (fun e he => mem_le_maxConf e he)

/-- Replaying a class over its own merge result is the identity when the
stored record came from outside the class. -/
theorem entFold_refold (L : List Entity) (x : Entity) :
    entFold (entFold x L) L = entFold x L := by
  cases L with
  | nil => rfl
  | cons e L' =>
    rw [entFold_eq (e :: L') x, entFold_eq (e :: L')]
    show ({ x with
        label := lastLabel (lastLabel x.label (e :: L')) (e :: L')
        confidence := maxConf (maxConf x.confidence (e :: L')) (e :: L')
        properties := mergeProps (mergeProps x.properties (flatProps (e :: L')))
          (flatProps (e :: L')) } : Entity) = _
    rw [maxConf_refold, mergeProps_refold]
    rfl

theorem entityExt {a b : Entity} (h1 : a.id = b.id) (h2 : a.label = b.label)
    (h3 : a.type = b.type) (h4 : a.properties = b.properties)
    (h5 : a.confidence = b.confidence) : a = b := by
  cases a
  cases b
  simp_all

/-- Replaying a class over its own merge result is the identity when the
class's own head was the inserted record (its properties are a real Go
map, hence duplicate-free). -/
theorem entFold_refold_inserted (L' : List Entity) (e : Entity)
    (hnd : NodupKeys e.properties) :
    entFold (entFold e L') (e :: L') = entFold e L' := by
  show entFold (mergeEntity (entFold e L') e) L' = entFold e L'
  have hconf : ¬(maxConf e.confidence L' < e.confidence) :=
    not_lt.2 (le_maxConf _ _)
  apply entityExt
  · rw [entFold_eq, entFold_eq L' e]
    rfl
  · rw [entFold_eq, entFold_eq L' e]
    rfl
  · rw [entFold_eq, entFold_eq L' e]
    rfl
  · show (entFold (mergeEntity (entFold e L') e) L').properties
      = (entFold e L').properties
    rw [entFold_eq L' (mergeEntity (entFold e L') e), entFold_eq L' e]
    show mergeProps (mergeProps (mergeProps e.properties (flatProps L')) e.properties)
      (flatProps L') = mergeProps e.properties (flatProps L')
    exact mergeProps_class_refold (flatProps L') hnd
  · show (entFold (mergeEntity (entFold e L') e) L').confidence
      = (entFold e L').confidence
    rw [entFold_eq L' (mergeEntity (entFold e L') e), entFold_eq L' e]
    show maxConf (if maxConf e.confidence L' < e.confidence then e.confidence
      else maxConf e.confidence L') L' = maxConf e.confidence L'
    rw [if_neg hconf, maxConf_refold]

/-- The entity-map update performed by one `CreateEntity` call. -/
def eStep (l : List (GoStr × Entity)) (e : Entity) : List (GoStr × Entity) :=
  match alookup e.id l with
  | some existingEntity => aset e.id (mergeEntity existingEntity e) l
  | none => aset e.id e l

/-- The entity-map after a batch of `CreateEntity` calls. -/
def eFold (l : List (GoStr × Entity)) (E : List Entity) : List (GoStr × Entity) :=
  E.foldl eStep l

theorem dbCreateEntity_eq (s : Store) (e : Entity) :
    dbCreateEntity s e = { s with entities := eStep s.entities e } := by
  unfold dbCreateEntity eStep
  cases alookup e.id s.entities <;> rfl

theorem dbCreateEntities_eq (s : Store) (E : List Entity) :
    dbCreateEntities s E = { s with entities := eFold s.entities E } := by
  induction E generalizing s with
  | nil => rfl
  | cons e E' ih =>
    show dbCreateEntities (dbCreateEntity s e) E' = _
    rw [ih, dbCreateEntity_eq]
    rfl

/-- The per-key effect of one merge: insert on `none`, merge on `some`. -/
def mergeEntityOpt (c : Option Entity) (e : Entity) : Option Entity :=
  some (match c with
    | none => e
    | some x => mergeEntity x e)

/-- The per-key class fold over optional stored values. -/
def gE (v : Option Entity) (L : List Entity) : Option Entity :=
  L.foldl mergeEntityOpt v

theorem gE_some (x : Entity) (L : List Entity) :
    gE (some x) L = some (entFold x L) := by
  induction L generalizing x with
  | nil => rfl
  | cons e L' ih => exact ih (mergeEntity x e)

theorem alookup_eStep_self (l : List (GoStr × Entity)) (e : Entity) :
    alookup e.id (eStep l e) = mergeEntityOpt (alookup e.id l) e := by
  unfold eStep mergeEntityOpt
  cases alookup e.id l <;> simp [alookup_aset_self]

theorem alookup_eStep_ne {k : GoStr} {e : Entity} (hne : e.id ≠ k)
    (l : List (GoStr × Entity)) : alookup k (eStep l e) = alookup k l := by
  unfold eStep
  cases alookup e.id l <;> exact alookup_aset_ne hne _ _

/-- Per-key characterization of the batch fold: the value at `k` is the
class fold of the batch entities carrying id `k`. -/
theorem alookup_eFold (k : GoStr) (E : List Entity) :
    ∀ l, alookup k (eFold l E)
      = gE (alookup k l) (E.filter (fun e => decide (e.id = k))) := by
  induction E with
  | nil => intro l; rfl
  | cons e E' ih =>
    intro l
    show alookup k (eFold (eStep l e) E') = _
    rw [ih]
    by_cases he : e.id = k
    · rw [List.filter_cons_of_pos (by simp [he])]
      subst he
      rw [alookup_eStep_self]
      rfl
    · rw [List.filter_cons_of_neg (by simp [he]), alookup_eStep_ne he]

theorem mem_akeys_aset_self {α : Type} (k : GoStr) (v : α) (l : List (GoStr × α)) :
    k ∈ akeys (aset k v l) :=
  mem_keys_of_mem (alookup_mem (alookup_aset_self k v l))

theorem mem_akeys_aset_mono {α : Type} {k : GoStr} {l : List (GoStr × α)}
    (k' : GoStr) (v : α) (h : k ∈ akeys l) : k ∈ akeys (aset k' v l) := by
  cases hl : alookup k' l with
  | some w =>
    rw [akeys_aset_of_isSome v (by rw [hl]; rfl)]
    exact h
  | none =>
    rw [akeys_aset_of_none v hl]
    exact List.mem_append_left _ h

theorem mem_akeys_eStep_self (l : List (GoStr × Entity)) (e : Entity) :
    e.id ∈ akeys (eStep l e) := by
  unfold eStep
  cases alookup e.id l <;> exact mem_akeys_aset_self _ _ _

theorem mem_akeys_eStep_mono {k : GoStr} {l : List (GoStr × Entity)}
    (e : Entity) (h : k ∈ akeys l) : k ∈ akeys (eStep l e) := by
  unfold eStep
  cases alookup e.id l <;> exact mem_akeys_aset_mono _ _ h

theorem mem_akeys_eFold_mono {k : GoStr} (E : List Entity) :
    ∀ {l}, k ∈ akeys l → k ∈ akeys (eFold l E) := by
  induction E with
  | nil => intro l h; exact h
  | cons e E' ih => intro l h; exact ih (mem_akeys_eStep_mono e h)

theorem eFold_presence (E : List Entity) :
    ∀ l, ∀ e ∈ E, e.id ∈ akeys (eFold l E) := by
  induction E with
  | nil => intro l e he; simp at he
  | cons e₀ E' ih =>
    intro l e he
    rcases List.mem_cons.1 he with rfl | he'
    · exact mem_akeys_eFold_mono E' (mem_akeys_eStep_self l e)
    · exact ih (eStep l e₀) e he'

theorem eStep_of_some {l : List (GoStr × Entity)} {x : Entity} (e : Entity)
    (h : alookup e.id l = some x) :
    eStep l e = aset e.id (mergeEntity x e) l := by
  unfold eStep; rw [h]

theorem eStep_comm (l : List (GoStr × Entity)) (e e' : Entity)
    (hne : e.id ≠ e'.id) (h1 : (alookup e.id l).isSome)
    (h2 : (alookup e'.id l).isSome) :
    eStep (eStep l e) e' = eStep (eStep l e') e := by
  obtain ⟨x, hx⟩ := Option.isSome_iff_exists.1 h1
  obtain ⟨x', hx'⟩ := Option.isSome_iff_exists.1 h2
  have step_e : eStep l e = aset e.id (mergeEntity x e) l := eStep_of_some e hx
  have step_e' : eStep l e' = aset e'.id (mergeEntity x' e') l := eStep_of_some e' hx'
  have l1 : alookup e'.id (eStep l e) = some x' := by
    rw [step_e, alookup_aset_ne hne, hx']
  have l2 : alookup e.id (eStep l e') = some x := by
    rw [step_e', alookup_aset_ne (fun hh => hne hh.symm), hx]
  rw [eStep_of_some e' l1, eStep_of_some e l2, step_e, step_e']
  exact aset_comm hne (by rw [hx]; rfl) (mergeEntity x e) (mergeEntity x' e')

theorem alookup_isSome_eStep {k : GoStr} {l : List (GoStr × Entity)}
    (e : Entity) (h : (alookup k l).isSome) :
    (alookup k (eStep l e)).isSome := by
  by_cases he : e.id = k
  · subst he
    rw [alookup_eStep_self]
    rfl
  · rw [alookup_eStep_ne he]
    exact h

/-- A step whose key differs from every key of `F` pushes out of a fold over `F`. -/
theorem eFold_push (k : GoStr) (F : List Entity) :
    ∀ (l : List (GoStr × Entity)) (e : Entity), e.id ≠ k →
      (∀ x ∈ F, x.id = k) →
      (alookup e.id l).isSome → (alookup k l).isSome →
      eFold (eStep l e) F = eStep (eFold l F) e := by
  induction F with
  | nil => intro l e _ _ _ _; rfl
  | cons x F' ih =>
    intro l e hek hF h1 h2
    have hxk : x.id = k := hF x (List.mem_cons_self x F')
    have hxe : x.id ≠ e.id := by rw [hxk]; exact fun hh => hek hh.symm
    have hswap : eStep (eStep l e) x = eStep (eStep l x) e := by
      have h2' : (alookup x.id l).isSome = true := by rw [hxk]; exact h2
      exact (eStep_comm l x e hxe h2' h1).symm
    show eFold (eStep (eStep l e) x) F' = _
    rw [hswap]
    have h1' : (alookup e.id (eStep l x)).isSome := alookup_isSome_eStep x h1
    have h2' : (alookup k (eStep l x)).isSome := alookup_isSome_eStep x h2
    exact ih (eStep l x) e hek (fun y hy => hF y (List.mem_cons_of_mem x hy)) h1' h2'

/-- Split a batch fold into the class of a key followed by the rest. -/
theorem eFold_split (k : GoStr) (E : List Entity) :
    ∀ (l : List (GoStr × Entity)),
      (∀ e ∈ E, e.id ∈ akeys l) → (alookup k l).isSome →
      eFold l E
        = eFold (eFold l (E.filter (fun e => decide (e.id = k))))
            (E.filter (fun e => !(decide (e.id = k)))) := by
  induction E with
  | nil => intro l _ _; rfl
  | cons e E' ih =>
    intro l hpres hk
    have hpres' : ∀ x ∈ E', x.id ∈ akeys (eStep l e) :=
      fun x hx => mem_akeys_eStep_mono e (hpres x (List.mem_cons_of_mem e hx))
    have hk' : (alookup k (eStep l e)).isSome := alookup_isSome_eStep e hk
    by_cases he : e.id = k
    · rw [List.filter_cons_of_pos (by simp [he]),
        List.filter_cons_of_neg (by simp [he])]
      show eFold (eStep l e) E' = eFold (eFold (eStep l e) _) _
      exact ih (eStep l e) hpres' hk'
    · rw [List.filter_cons_of_neg (by simp [he]),
        List.filter_cons_of_pos (by simp [he])]
      show eFold (eStep l e) E' = _
      rw [ih (eStep l e) hpres' hk']
      have hpush : eFold (eStep l e) (E'.filter (fun x => decide (x.id = k)))
          = eStep (eFold l (E'.filter (fun x => decide (x.id = k)))) e := by
        refine eFold_push k _ l e he ?_ ?_ hk
        · intro x hx
          have := List.of_mem_filter hx
          simpa using this
        · exact alookup_isSome_of_mem_keys (hpres e (List.mem_cons_self e E'))
      rw [hpush]
      rfl

/-- Folding a single id class with a stored occupant replaces that occupant
by the entity-level class fold. -/
theorem eFold_class (k : GoStr) (F : List Entity) :
    ∀ (l : List (GoStr × Entity)) (w : Entity),
      (∀ x ∈ F, x.id = k) → alookup k l = some w →
      eFold l F = aset k (entFold w F) l := by
  induction F with
  | nil =>
    intro l w _ hw
    exact (aset_noop hw).symm
  | cons x F' ih =>
    intro l w hF hw
    have hxk : x.id = k := hF x (List.mem_cons_self x F')
    have hstep : eStep l x = aset k (mergeEntity w x) l := by
      have : alookup x.id l = some w := by rw [hxk]; exact hw
      rw [eStep_of_some x this, hxk]
    show eFold (eStep l x) F' = _
    rw [hstep,
      ih (aset k (mergeEntity w x) l) (mergeEntity w x)
        (fun y hy => hF y (List.mem_cons_of_mem x hy))
        (alookup_aset_self k _ l),
      aset_aset_self]
    rfl

theorem filter_class_of_ne (E : List Entity) (k j : GoStr) (hjk : j ≠ k) :
    (E.filter (fun x => !(decide (x.id = k)))).filter (fun x => decide (x.id = j))
      = E.filter (fun x => decide (x.id = j)) := by
  induction E with
  | nil => rfl
  | cons x E' ih =>
    by_cases hx : x.id = k
    · rw [List.filter_cons_of_neg (by simp [hx]),
        List.filter_cons_of_neg (by simp [hx, hjk.symm]), ih]
    · by_cases hj : x.id = j
      · rw [List.filter_cons_of_pos (by simp [hx]),
          List.filter_cons_of_pos (by simp [hj]),
          List.filter_cons_of_pos (by simp [hj]), ih]
      · rw [List.filter_cons_of_pos (by simp [hx]),
          List.filter_cons_of_neg (by simp [hj]),
          List.filter_cons_of_neg (by simp [hj]), ih]

/-- A batch fold is the identity when every batch entity's stored occupant
already absorbs its id class. -/
theorem eFold_absorb (n : Nat) :
    ∀ (E : List Entity) (l : List (GoStr × Entity)), E.length ≤ n →
      (∀ e ∈ E, e.id ∈ akeys l) →
      (∀ e ∈ E, ∃ w, alookup e.id l = some w ∧
          entFold w (E.filter (fun x => decide (x.id = e.id))) = w) →
      eFold l E = l := by
  induction n with
  | zero =>
    intro E l hlen _ _
    rw [List.length_eq_zero.1 (Nat.le_zero.1 hlen)]
    rfl
  | succ n ih =>
    intro E l hlen hpres habs
    cases E with
    | nil => rfl
    | cons e E' =>
      obtain ⟨w, hw, hwabs⟩ := habs e (List.mem_cons_self e E')
      have hkSome : (alookup e.id l).isSome := by rw [hw]; rfl
      rw [eFold_split e.id (e :: E') l hpres hkSome]
      have hclass : eFold l ((e :: E').filter (fun x => decide (x.id = e.id)))
          = l := by
        rw [eFold_class e.id _ l w
          (fun x hx => by simpa using List.of_mem_filter hx) hw, hwabs]
        exact aset_noop hw
      rw [hclass]
      have hN : (e :: E').filter (fun x => !(decide (x.id = e.id)))
          = E'.filter (fun x => !(decide (x.id = e.id))) := by
        rw [List.filter_cons_of_neg (by simp)]
      rw [hN]
      refine ih _ l ?_ ?_ ?_
      · exact le_trans (List.length_filter_le _ _) (Nat.le_of_succ_le_succ hlen)
      · intro x hx
        exact hpres x (List.mem_cons_of_mem e (List.mem_of_mem_filter hx))
      · intro x hx
        have hxne : x.id ≠ e.id := by
          have := List.of_mem_filter hx
          simpa using this
        obtain ⟨w', hw', habs'⟩ :=
          habs x (List.mem_cons_of_mem e (List.mem_of_mem_filter hx))
        refine ⟨w', hw', ?_⟩
        rw [filter_class_of_ne E' e.id x.id hxne]
        have hEfilter : (e :: E').filter (fun y => decide (y.id = x.id))
            = E'.filter (fun y => decide (y.id = x.id)) := by
          rw [List.filter_cons_of_neg
            (by simp only [decide_eq_true_eq]; exact fun hh => hxne hh.symm)]
        rw [hEfilter] at habs'
        exact habs'

/-- Replaying the same entity batch a second time changes nothing. -/
theorem eFold_idem (E : List Entity) (l : List (GoStr × Entity))
    (HE : ∀ e ∈ E, NodupKeys e.properties) :
    eFold (eFold l E) E = eFold l E := by
  refine eFold_absorb E.length E (eFold l E) le_rfl (eFold_presence E l) ?_
  intro e he
  have hmemF : e ∈ E.filter (fun x => decide (x.id = e.id)) :=
    List.mem_filter.2 ⟨he, by simp⟩
  rw [alookup_eFold]
  cases hx : alookup e.id l with
  | some x =>
    rw [gE_some]
    exact ⟨entFold x (E.filter (fun y => decide (y.id = e.id))), rfl,
      entFold_refold _ _⟩
  | none =>
    cases hF : E.filter (fun y => decide (y.id = e.id)) with
    | nil => rw [hF] at hmemF; simp at hmemF
    | cons f1 F'' =>
      have hgE : gE none (f1 :: F'') = some (entFold f1 F'') := by
        show gE (mergeEntityOpt none f1) F'' = _
        show gE (some f1) F'' = _
        exact gE_some f1 F''
      rw [hgE]
      refine ⟨entFold f1 F'', rfl, ?_⟩
      have hf1mem : f1 ∈ E := by
        have : f1 ∈ E.filter (fun y => decide (y.id = e.id)) := by
          rw [hF]; exact List.mem_cons_self f1 F''
        exact List.mem_of_mem_filter this
      exact entFold_refold_inserted F'' f1 (HE f1 hf1mem)

/-! ## Idempotence of the relationship phase (towards amended C1) -/

/-- Folding a class of same-triple relationships into a stored edge. -/
def relFold (x : Relationship) (L : List Relationship) : Relationship :=
  L.foldl mergeRel x

/-- The confidence after a relationship merge fold: the running maximum. -/
def relMaxConf (c : Rat) (L : List Relationship) : Rat :=
  L.foldl (fun a r => if a < r.confidence then r.confidence else a) c

/-- The concatenated incoming property batches of a relationship class. -/
def relFlatProps (L : List Relationship) : PropMap := (L.map (·.properties)).join

/-- Normal form of the relationship merge fold. -/
theorem relFold_eq (L : List Relationship) (x : Relationship) :
    relFold x L
      = { x with
          confidence := relMaxConf x.confidence L
          properties := mergeProps x.properties (relFlatProps L) } := by
  induction L generalizing x with
  | nil => rfl
  | cons r L' ih =>
    show relFold (mergeRel x r) L' = _
    rw [ih]
    show ({ x with
        confidence := relMaxConf x.confidence (r :: L')
        properties := mergeProps (mergeProps x.properties r.properties)
          (relFlatProps L') } : Relationship) = _
    rw [← mergeProps_append]
    rfl

theorem relFold_triple (L : List Relationship) (x : Relationship) :
    relTriple (relFold x L) = relTriple x := by
  rw [relFold_eq]
  rfl

theorem le_relMaxConf (c : Rat) (L : List Relationship) : c ≤ relMaxConf c L := by
  induction L generalizing c with
  | nil => exact le_refl c
  | cons r L' ih =>
    show c ≤ relMaxConf (if c < r.confidence then r.confidence else c) L'
    refine le_trans ?_ (ih _)
    by_cases h : c < r.confidence
    · rw [if_pos h]; exact le_of_lt h
    · rw [if_neg h]

theorem mem_le_relMaxConf {c : Rat} {L : List Relationship} :
    ∀ r ∈ L, r.confidence ≤ relMaxConf c L := by
  induction L generalizing c with
  | nil => intro r hr; simp at hr
  | cons r₀ L' ih =>
    intro r hr
    rcases List.mem_cons.1 hr with rfl | hr'
    · show r.confidence ≤ relMaxConf (if c < r.confidence then r.confidence else c) L'
      refine le_trans ?_ (le_relMaxConf _ _)
      by_cases h : c < r.confidence
      · rw [if_pos h]
      · rw [if_neg h]; exact le_of_not_lt h
    · exact ih r hr'

theorem relMaxConf_absorb {a : Rat} {L : List Relationship}
    (h : ∀ r ∈ L, r.confidence ≤ a) : relMaxConf a L = a := by
  induction L with
  | nil => rfl
  | cons r L' ih =>
    show relMaxConf (if a < r.confidence then r.confidence else a) L' = a
    rw [if_neg (not_lt.2 (h r (List.mem_cons_self _ _)))]
    exact ih (fun x hx => h x (List.mem_cons_of_mem _ hx))

theorem relMaxConf_refold (c : Rat) (L : List Relationship) :
    relMaxConf (relMaxConf c L) L = relMaxConf c L :=
  relMaxConf_absorb (fun r hr => mem_le_relMaxConf r hr)

/-- Replaying a triple class over its own merge result is the identity when
the stored edge came from outside the class. -/
theorem relFold_refold (L : List Relationship) (x : Relationship) :
    relFold (relFold x L) L = relFold x L := by
  cases L with
  | nil => rfl
  | cons r L' =>
    rw [relFold_eq (r :: L') x, relFold_eq (r :: L')]
    show ({ x with
        confidence := relMaxConf (relMaxConf x.confidence (r :: L')) (r :: L')
        properties := mergeProps (mergeProps x.properties (relFlatProps (r :: L')))
          (relFlatProps (r :: L')) } : Relationship) = _
    rw [relMaxConf_refold, mergeProps_refold]

theorem relExt {a b : Relationship} (h1 : a.id = b.id) (h2 : a.source = b.source)
    (h3 : a.target = b.target) (h4 : a.type = b.type)
    (h5 : a.properties = b.properties) (h6 : a.confidence = b.confidence) :
    a = b := by
  cases a
  cases b
  simp_all

/-- Replaying a triple class over its own merge result is the identity when
the class's own head was the inserted edge (its properties are a real Go
map, hence duplicate-free). -/
theorem relFold_refold_inserted (L' : List Relationship) (r : Relationship)
    (hnd : NodupKeys r.properties) :
    relFold (relFold r L') (r :: L') = relFold r L' := by
  show relFold (mergeRel (relFold r L') r) L' = relFold r L'
  have hconf : ¬(relMaxConf r.confidence L' < r.confidence) :=
    not_lt.2 (le_relMaxConf _ _)
  apply relExt
  · rw [relFold_eq, relFold_eq L' r]
    rfl
  · rw [relFold_eq, relFold_eq L' r]
    rfl
  · rw [relFold_eq, relFold_eq L' r]
    rfl
  · rw [relFold_eq, relFold_eq L' r]
    rfl
  · show (relFold (mergeRel (relFold r L') r) L').properties
      = (relFold r L').properties
    rw [relFold_eq L' (mergeRel (relFold r L') r), relFold_eq L' r]
    show mergeProps (mergeProps (mergeProps r.properties (relFlatProps L')) r.properties)
      (relFlatProps L') = mergeProps r.properties (relFlatProps L')
    exact mergeProps_class_refold (relFlatProps L') hnd
  · show (relFold (mergeRel (relFold r L') r) L').confidence
      = (relFold r L').confidence
    rw [relFold_eq L' (mergeRel (relFold r L') r), relFold_eq L' r]
    show relMaxConf (if relMaxConf r.confidence L' < r.confidence then r.confidence
      else relMaxConf r.confidence L') L' = relMaxConf r.confidence L'
    rw [if_neg hconf, relMaxConf_refold]

/-- The relationship-map update performed by one successful
`CreateRelationship` call (both endpoint checks passed): merge into the
matching-triple edge when its key is non-empty, otherwise insert under the
incoming id. -/
def rStep (l : List (GoStr × Relationship)) (r : Relationship) :
    List (GoStr × Relationship) :=
  match findMatchingRel r l with
  | some (k, ex) => if k ≠ [] then aset k (mergeRel ex r) l else aset r.id r l
  | none => aset r.id r l

/-- The relationship-map after a batch of successful calls. -/
def rFold (l : List (GoStr × Relationship)) (R : List Relationship) :
    List (GoStr × Relationship) :=
  R.foldl rStep l

/-- Both endpoint entities of a relationship are present in an entity map. -/
def okRel (ents : List (GoStr × Entity)) (r : Relationship) : Bool :=
  (alookup r.source ents).isSome && (alookup r.target ents).isSome

theorem dbCreateRelationship_ok_eq {s : Store} {r : Relationship}
    (h : okRel s.entities r = true) :
    dbCreateRelationship s r
      = .ok { s with relationships := rStep s.relationships r } := by
  unfold okRel at h
  obtain ⟨h1, h2⟩ := (Bool.and_eq_true _ _).mp h
  obtain ⟨a, ha⟩ := Option.isSome_iff_exists.1 h1
  obtain ⟨b, hb⟩ := Option.isSome_iff_exists.1 h2
  unfold dbCreateRelationship rStep
  rw [ha, hb]
  simp only [Option.isNone_some, Bool.false_eq_true, if_false]
  cases findMatchingRel r s.relationships with
  | none => rfl
  | some p =>
    obtain ⟨k, ex⟩ := p
    show (if k ≠ [] then
            Except.ok { s with relationships := aset k (mergeRel ex r) s.relationships }
          else Except.ok { s with relationships := aset r.id r s.relationships })
        = Except.ok { s with relationships :=
            (if k ≠ [] then aset k (mergeRel ex r) s.relationships
             else aset r.id r s.relationships) }
    by_cases hk : k ≠ []
    · rw [if_pos hk, if_pos hk]
    · rw [if_neg hk, if_neg hk]

theorem dbCreateRelationship_err {s : Store} {r : Relationship}
    (h : okRel s.entities r = false) :
    ∃ e, dbCreateRelationship s r = .error e := by
  unfold okRel at h
  cases ha : alookup r.source s.entities with
  | none =>
    refine ⟨str "source entity not found", ?_⟩
    unfold dbCreateRelationship
    rw [ha]
    rfl
  | some a =>
    rw [ha] at h
    simp only [Option.isSome_some, Bool.true_and] at h
    cases hb : alookup r.target s.entities with
    | none =>
      refine ⟨str "target entity not found", ?_⟩
      unfold dbCreateRelationship
      rw [ha, hb]
      rfl
    | some b =>
      rw [hb] at h
      simp at h

/-- `CreateRelationships` applies exactly the longest prefix of the batch
whose endpoint checks pass against the (unchanging) entity map, via the
pure relationship-map fold. -/
theorem relsApplied_eq (R : List Relationship) :
    ∀ s : Store, relsApplied s R
      = { s with relationships :=
            rFold s.relationships (R.takeWhile (okRel s.entities)) } := by
  induction R with
  | nil => intro s; rfl
  | cons r R' ih =>
    intro s
    cases hok : okRel s.entities r with
    | true =>
      rw [show relsApplied s (r :: R')
          = (match dbCreateRelationship s r with
             | .ok db' => relsApplied db' R'
             | .error _ => s) from rfl,
        dbCreateRelationship_ok_eq hok]
      show relsApplied { s with relationships := rStep s.relationships r } R' = _
      rw [ih, List.takeWhile_cons_of_pos hok]
      rfl
    | false =>
      obtain ⟨e, he⟩ := dbCreateRelationship_err hok
      rw [show relsApplied s (r :: R')
          = (match dbCreateRelationship s r with
             | .ok db' => relsApplied db' R'
             | .error _ => s) from rfl,
        he, List.takeWhile_cons_of_neg (by rw [hok]; exact Bool.false_ne_true)]
      rfl

/-- List-level form of the relationship-map invariant: a real Go map whose
keys are non-empty and whose stored triples are pairwise distinct. -/
def RelMapWF (l : List (GoStr × Relationship)) : Prop :=
  NodupKeys l ∧ (∀ p ∈ l, p.1 ≠ ([] : GoStr)) ∧ TriplesDistinct l

/-- Some stored edge carries the given `(source, target, type)` triple. -/
def hasTriple (l : List (GoStr × Relationship)) (t : GoStr × GoStr × GoStr) : Prop :=
  ∃ k ρ, alookup k l = some ρ ∧ relTriple ρ = t

/-- The batch suffix is coherent with the stored map: a stored key equal to
a batch relationship's id carries that relationship's triple. -/
def rCoh (S : List Relationship) (l : List (GoStr × Relationship)) : Prop :=
  ∀ p ∈ l, ∀ r ∈ S, p.1 = r.id → relTriple p.2 = relTriple r

theorem triples_ne_of_mem {l : List (GoStr × Relationship)}
    {k k' : GoStr} {ρ ρ' : Relationship} (hd : TriplesDistinct l)
    (h1 : (k, ρ) ∈ l) (h2 : (k', ρ') ∈ l) (hne : k ≠ k') :
    relTriple ρ ≠ relTriple ρ' := by
  have hsym : Symmetric (fun p q : GoStr × Relationship =>
      relTriple p.2 ≠ relTriple q.2) := fun p q h => h.symm
  exact hd.forall hsym h1 h2 (fun hh => hne (congrArg Prod.fst hh))

theorem findMatchingRel_isSome_of_hasTriple {l : List (GoStr × Relationship)}
    {r : Relationship} (h : hasTriple l (relTriple r)) :
    ∃ k ex, findMatchingRel r l = some (k, ex) := by
  cases hf : findMatchingRel r l with
  | some p =>
    obtain ⟨k, ex⟩ := p
    exact ⟨k, ex, rfl⟩
  | none =>
    obtain ⟨k, ρ, hk, ht⟩ := h
    exact absurd ht (findMatchingRel_none hf (k, ρ) (alookup_mem hk))

theorem rStep_merge {l : List (GoStr × Relationship)} {r : Relationship}
    {k : GoStr} {ex : Relationship}
    (hfind : findMatchingRel r l = some (k, ex)) (hk : k ≠ []) :
    rStep l r = aset k (mergeRel ex r) l := by
  unfold rStep
  rw [hfind]
  show (if k ≠ [] then aset k (mergeRel ex r) l else aset r.id r l) = _
  rw [if_pos hk]

theorem rStep_insert {l : List (GoStr × Relationship)} {r : Relationship}
    (hfind : findMatchingRel r l = none) :
    rStep l r = aset r.id r l := by
  unfold rStep
  rw [hfind]

theorem alookup_id_none_of_find_none {l : List (GoStr × Relationship)}
    {r : Relationship} (hfind : findMatchingRel r l = none)
    (hco : ∀ p ∈ l, p.1 = r.id → relTriple p.2 = relTriple r) :
    alookup r.id l = none := by
  cases ha : alookup r.id l with
  | none => rfl
  | some ρ =>
    exact absurd (hco (r.id, ρ) (alookup_mem ha) rfl)
      (findMatchingRel_none hfind (r.id, ρ) (alookup_mem ha))

theorem hasTriple_aset_merge {l : List (GoStr × Relationship)} {k : GoStr}
    {ex : Relationship} (r : Relationship) (hex : alookup k l = some ex) :
    ∀ t, hasTriple l t → hasTriple (aset k (mergeRel ex r) l) t := by
  rintro t ⟨k', ρ, hk', ht⟩
  by_cases h : k' = k
  · subst h
    rw [hk'] at hex
    refine ⟨k', mergeRel ex r, alookup_aset_self _ _ _, ?_⟩
    rw [relTriple_mergeRel, ← Option.some.inj hex, ht]
  · exact ⟨k', ρ, by rw [alookup_aset_ne (fun hh => h hh.symm)]; exact hk', ht⟩

theorem hasTriple_aset_fresh {l : List (GoStr × Relationship)} {k₁ : GoStr}
    (v : Relationship) (hnone : alookup k₁ l = none) :
    ∀ t, hasTriple l t → hasTriple (aset k₁ v l) t := by
  rintro t ⟨k', ρ, hk', ht⟩
  have hne : k₁ ≠ k' := by
    rintro rfl
    rw [hnone] at hk'
    exact Option.noConfusion hk'
  exact ⟨k', ρ, by rw [alookup_aset_ne hne]; exact hk', ht⟩

theorem relMapWF_aset_merge {l : List (GoStr × Relationship)} {k : GoStr}
    {ex : Relationship} (r : Relationship) (hwf : RelMapWF l)
    (hex : alookup k l = some ex) :
    RelMapWF (aset k (mergeRel ex r) l) := by
  refine ⟨nodupKeys_aset _ _ hwf.1, ?_, ?_⟩
  · intro p hp
    rcases mem_aset hp with hm | hm
    · exact hwf.2.1 p hm
    · rw [hm]
      exact hwf.2.1 (k, ex) (alookup_mem hex)
  · exact triplesDistinct_aset_same hex (relTriple_mergeRel ex r) hwf.2.2

theorem relMapWF_aset_fresh {l : List (GoStr × Relationship)} {r : Relationship}
    (hwf : RelMapWF l) (hid : r.id ≠ [])
    (hfind : findMatchingRel r l = none) :
    RelMapWF (aset r.id r l) := by
  refine ⟨nodupKeys_aset _ _ hwf.1, ?_, ?_⟩
  · intro p hp
    rcases mem_aset hp with hm | hm
    · exact hwf.2.1 p hm
    · rw [hm]
      exact hid
  · exact triplesDistinct_aset_fresh (findMatchingRel_none hfind) hwf.2.2

theorem rCoh_tail {S : List Relationship} {r₀ : Relationship}
    {l : List (GoStr × Relationship)} (h : rCoh (r₀ :: S) l) : rCoh S l :=
  fun p hp r hr => h p hp r (List.mem_cons_of_mem r₀ hr)

theorem rCoh_aset_merge {S : List Relationship} {r₀ : Relationship}
    {l : List (GoStr × Relationship)} {k : GoStr} {ex : Relationship}
    (hco : rCoh (r₀ :: S) l) (hkex : (k, ex) ∈ l) :
    rCoh S (aset k (mergeRel ex r₀) l) := by
  intro p hp r hr hpr
  rcases mem_aset hp with hm | hm
  · exact hco p hm r (List.mem_cons_of_mem r₀ hr) hpr
  · rw [hm] at hpr ⊢
    show relTriple (mergeRel ex r₀) = relTriple r
    rw [relTriple_mergeRel]
    exact hco (k, ex) hkex r (List.mem_cons_of_mem r₀ hr) hpr

theorem rCoh_aset_fresh {S : List Relationship} {r₀ : Relationship}
    {l : List (GoStr × Relationship)}
    (hco : rCoh (r₀ :: S) l)
    (hR3 : ∀ r ∈ r₀ :: S, ∀ r' ∈ r₀ :: S, r.id = r'.id → relTriple r = relTriple r') :
    rCoh S (aset r₀.id r₀ l) := by
  intro p hp r hr hpr
  rcases mem_aset hp with hm | hm
  · exact hco p hm r (List.mem_cons_of_mem r₀ hr) hpr
  · rw [hm] at hpr ⊢
    exact hR3 r₀ (List.mem_cons_self _ _) r (List.mem_cons_of_mem r₀ hr) hpr

/-- Pass 1 of the relationship batch: the invariant is preserved, stored
triples persist, every batch triple ends up stored, and the value at a key
that was already stored is the triple-class fold of the batch into it. -/
theorem rFold_pass1 (S : List Relationship) :
    ∀ l, RelMapWF l → rCoh S l →
      (∀ r ∈ S, r.id ≠ ([] : GoStr)) →
      (∀ r ∈ S, ∀ r' ∈ S, r.id = r'.id → relTriple r = relTriple r') →
      RelMapWF (rFold l S)
      ∧ (∀ t, hasTriple l t → hasTriple (rFold l S) t)
      ∧ (∀ r ∈ S, hasTriple (rFold l S) (relTriple r))
      ∧ (∀ k ρ, alookup k l = some ρ →
          alookup k (rFold l S)
            = some (relFold ρ
                (S.filter (fun r => decide (relTriple r = relTriple ρ))))) := by
  induction S with
  | nil =>
    intro l hwf _ _ _
    exact ⟨hwf, fun t h => h, fun r hr => absurd hr (List.not_mem_nil r),
      fun k ρ hk => hk⟩
  | cons r₀ S' ih =>
    intro l hwf hco hR2 hR3
    have hR2' : ∀ r ∈ S', r.id ≠ ([] : GoStr) :=
      fun r hr => hR2 r (List.mem_cons_of_mem r₀ hr)
    have hR3' : ∀ r ∈ S', ∀ r' ∈ S', r.id = r'.id → relTriple r = relTriple r' :=
      fun r hr r' hr' =>
        hR3 r (List.mem_cons_of_mem r₀ hr) r' (List.mem_cons_of_mem r₀ hr')
    cases hfind : findMatchingRel r₀ l with
    | some p =>
      obtain ⟨k₀, ex⟩ := p
      obtain ⟨hmem, htr⟩ := findMatchingRel_some hfind
      have hk0 : k₀ ≠ [] := hwf.2.1 _ hmem
      have hex : alookup k₀ l = some ex := alookup_of_mem_nodup hwf.1 hmem
      have hstep : rStep l r₀ = aset k₀ (mergeRel ex r₀) l := rStep_merge hfind hk0
      have hwf₁ : RelMapWF (aset k₀ (mergeRel ex r₀) l) :=
        relMapWF_aset_merge r₀ hwf hex
      have hco₁ : rCoh S' (aset k₀ (mergeRel ex r₀) l) := rCoh_aset_merge hco hmem
      obtain ⟨ihwf, ihmono, ihall, ihlk⟩ :=
        ih (aset k₀ (mergeRel ex r₀) l) hwf₁ hco₁ hR2' hR3'
      have hfold : rFold l (r₀ :: S') = rFold (aset k₀ (mergeRel ex r₀) l) S' := by
        show rFold (rStep l r₀) S' = _
        rw [hstep]
      refine ⟨?_, ?_, ?_, ?_⟩
      · rw [hfold]; exact ihwf
      · intro t ht
        rw [hfold]
        exact ihmono t (hasTriple_aset_merge r₀ hex t ht)
      · intro r hr
        rw [hfold]
        rcases List.mem_cons.1 hr with rfl | hr'
        · refine ihmono _ ⟨k₀, mergeRel ex r, alookup_aset_self _ _ _, ?_⟩
          rw [relTriple_mergeRel, htr]
        · exact ihall r hr'
      · intro k ρ hk
        rw [hfold]
        by_cases hkk : k = k₀
        · subst hkk
          have hρ : ρ = ex := by
            have hh := hex
            rw [hk] at hh
            exact Option.some.inj hh
          subst hρ
          rw [ihlk k (mergeRel ρ r₀) (alookup_aset_self _ _ _)]
          congr 1
          rw [List.filter_cons_of_pos (by simp [htr]), relTriple_mergeRel]
          rfl
        · have hk₁ : alookup k (aset k₀ (mergeRel ex r₀) l) = some ρ := by
            rw [alookup_aset_ne (fun hh => hkk hh.symm)]
            exact hk
          rw [ihlk k ρ hk₁]
          have hne : relTriple ex ≠ relTriple ρ :=
            triples_ne_of_mem hwf.2.2 hmem (alookup_mem hk) (fun hh => hkk hh.symm)
          have hfil : (r₀ :: S').filter (fun r => decide (relTriple r = relTriple ρ))
              = S'.filter (fun r => decide (relTriple r = relTriple ρ)) :=
            List.filter_cons_of_neg
              (by simp only [decide_eq_true_eq]
                  exact fun hh => hne (htr.trans hh))
          rw [hfil]
    | none =>
      have hids : alookup r₀.id l = none :=
        alookup_id_none_of_find_none hfind
          (fun p hp => hco p hp r₀ (List.mem_cons_self _ _))
      have hid0 : r₀.id ≠ [] := hR2 r₀ (List.mem_cons_self _ _)
      have hstep : rStep l r₀ = aset r₀.id r₀ l := rStep_insert hfind
      have hwf₁ : RelMapWF (aset r₀.id r₀ l) := relMapWF_aset_fresh hwf hid0 hfind
      have hco₁ : rCoh S' (aset r₀.id r₀ l) := rCoh_aset_fresh hco hR3
      obtain ⟨ihwf, ihmono, ihall, ihlk⟩ :=
        ih (aset r₀.id r₀ l) hwf₁ hco₁ hR2' hR3'
      have hfold : rFold l (r₀ :: S') = rFold (aset r₀.id r₀ l) S' := by
        show rFold (rStep l r₀) S' = _
        rw [hstep]
      refine ⟨?_, ?_, ?_, ?_⟩
      · rw [hfold]; exact ihwf
      · intro t ht
        rw [hfold]
        exact ihmono t (hasTriple_aset_fresh r₀ hids t ht)
      · intro r hr
        rw [hfold]
        rcases List.mem_cons.1 hr with rfl | hr'
        · exact ihmono _ ⟨r.id, r, alookup_aset_self _ _ _, rfl⟩
        · exact ihall r hr'
      · intro k ρ hk
        rw [hfold]
        have hkne : r₀.id ≠ k := by
          rintro rfl
          rw [hids] at hk
          exact Option.noConfusion hk
        have hk₁ : alookup k (aset r₀.id r₀ l) = some ρ := by
          rw [alookup_aset_ne hkne]
          exact hk
        rw [ihlk k ρ hk₁]
        have hτne : relTriple r₀ ≠ relTriple ρ := by
          intro hh
          exact (findMatchingRel_none hfind (k, ρ) (alookup_mem hk)) hh.symm
        have hfil : (r₀ :: S').filter (fun r => decide (relTriple r = relTriple ρ))
            = S'.filter (fun r => decide (relTriple r = relTriple ρ)) :=
          List.filter_cons_of_neg (by simp only [decide_eq_true_eq]; exact hτne)
        rw [hfil]

/-- Pass 1, inserted keys: a key absent from the stored map is either still
absent afterwards, or it is the id of the first batch relationship of a
triple class that was not stored before, and holds the fold of the rest of
that class into it. -/
theorem rFold_pass1_new (S : List Relationship) :
    ∀ l, RelMapWF l → rCoh S l →
      (∀ r ∈ S, r.id ≠ ([] : GoStr)) →
      (∀ r ∈ S, ∀ r' ∈ S, r.id = r'.id → relTriple r = relTriple r') →
      ∀ k, alookup k l = none →
        alookup k (rFold l S) = none
        ∨ ∃ f C', S.filter (fun r => decide (relTriple r = relTriple f)) = f :: C'
            ∧ k = f.id ∧ ¬ hasTriple l (relTriple f)
            ∧ alookup k (rFold l S) = some (relFold f C') := by
  induction S with
  | nil =>
    intro l _ _ _ _ k hk
    exact Or.inl hk
  | cons r₀ S' ih =>
    intro l hwf hco hR2 hR3 k hk
    have hR2' : ∀ r ∈ S', r.id ≠ ([] : GoStr) :=
      fun r hr => hR2 r (List.mem_cons_of_mem r₀ hr)
    have hR3' : ∀ r ∈ S', ∀ r' ∈ S', r.id = r'.id → relTriple r = relTriple r' :=
      fun r hr r' hr' =>
        hR3 r (List.mem_cons_of_mem r₀ hr) r' (List.mem_cons_of_mem r₀ hr')
    cases hfind : findMatchingRel r₀ l with
    | some p =>
      obtain ⟨k₀, ex⟩ := p
      obtain ⟨hmem, htr⟩ := findMatchingRel_some hfind
      have hk0 : k₀ ≠ [] := hwf.2.1 _ hmem
      have hex : alookup k₀ l = some ex := alookup_of_mem_nodup hwf.1 hmem
      have hstep : rStep l r₀ = aset k₀ (mergeRel ex r₀) l := rStep_merge hfind hk0
      have hwf₁ : RelMapWF (aset k₀ (mergeRel ex r₀) l) :=
        relMapWF_aset_merge r₀ hwf hex
      have hco₁ : rCoh S' (aset k₀ (mergeRel ex r₀) l) := rCoh_aset_merge hco hmem
      have hfold : rFold l (r₀ :: S') = rFold (aset k₀ (mergeRel ex r₀) l) S' := by
        show rFold (rStep l r₀) S' = _
        rw [hstep]
      have hkne : k₀ ≠ k := by
        rintro rfl
        rw [hex] at hk
        exact Option.noConfusion hk
      have hk₁ : alookup k (aset k₀ (mergeRel ex r₀) l) = none := by
        rw [alookup_aset_ne hkne]
        exact hk
      rcases ih (aset k₀ (mergeRel ex r₀) l) hwf₁ hco₁ hR2' hR3' k hk₁ with
        hnone | ⟨f, C', hfil, hkid, hnot, hval⟩
      · left
        rw [hfold]
        exact hnone
      · right
        have hτr₀ : hasTriple (aset k₀ (mergeRel ex r₀) l) (relTriple r₀) :=
          ⟨k₀, mergeRel ex r₀, alookup_aset_self _ _ _,
            by rw [relTriple_mergeRel, htr]⟩
        have hτne : relTriple r₀ ≠ relTriple f := fun hh => hnot (hh ▸ hτr₀)
        refine ⟨f, C', ?_, hkid, ?_, by rw [hfold]; exact hval⟩
        · rw [List.filter_cons_of_neg (by simp only [decide_eq_true_eq]; exact hτne)]
          exact hfil
        · intro hT
          exact hnot (hasTriple_aset_merge r₀ hex _ hT)
    | none =>
      have hids : alookup r₀.id l = none :=
        alookup_id_none_of_find_none hfind
          (fun p hp => hco p hp r₀ (List.mem_cons_self _ _))
      have hid0 : r₀.id ≠ [] := hR2 r₀ (List.mem_cons_self _ _)
      have hstep : rStep l r₀ = aset r₀.id r₀ l := rStep_insert hfind
      have hwf₁ : RelMapWF (aset r₀.id r₀ l) := relMapWF_aset_fresh hwf hid0 hfind
      have hco₁ : rCoh S' (aset r₀.id r₀ l) := rCoh_aset_fresh hco hR3
      have hfold : rFold l (r₀ :: S') = rFold (aset r₀.id r₀ l) S' := by
        show rFold (rStep l r₀) S' = _
        rw [hstep]
      have hnotl : ¬ hasTriple l (relTriple r₀) := by
        rintro ⟨k', ρ, hk', ht⟩
        exact (findMatchingRel_none hfind (k', ρ) (alookup_mem hk')) ht
      by_cases hkk : k = r₀.id
      · right
        refine ⟨r₀, S'.filter (fun r => decide (relTriple r = relTriple r₀)),
          ?_, hkk, hnotl, ?_⟩
        · rw [List.filter_cons_of_pos (by simp)]
        · rw [hfold]
          obtain ⟨_, _, _, p1lk⟩ := rFold_pass1 S' (aset r₀.id r₀ l) hwf₁ hco₁ hR2' hR3'
          have hself : alookup k (aset r₀.id r₀ l) = some r₀ := by
            rw [hkk]
            exact alookup_aset_self _ _ _
          exact p1lk k r₀ hself
      · have hk₁ : alookup k (aset r₀.id r₀ l) = none := by
          rw [alookup_aset_ne (fun hh => hkk hh.symm)]
          exact hk
        rcases ih (aset r₀.id r₀ l) hwf₁ hco₁ hR2' hR3' k hk₁ with
          hnone | ⟨f, C', hfil, hkid, hnot, hval⟩
        · left
          rw [hfold]
          exact hnone
        · right
          have hτr₀ : hasTriple (aset r₀.id r₀ l) (relTriple r₀) :=
            ⟨r₀.id, r₀, alookup_aset_self _ _ _, rfl⟩
          have hτne : relTriple r₀ ≠ relTriple f := fun hh => hnot (hh ▸ hτr₀)
          refine ⟨f, C', ?_, hkid, ?_, by rw [hfold]; exact hval⟩
          · rw [List.filter_cons_of_neg (by simp only [decide_eq_true_eq]; exact hτne)]
            exact hfil
          · intro hT
            exact hnot (hasTriple_aset_fresh r₀ hids _ hT)

/-- Pass 2 of the relationship batch, when every batch triple is already
stored: the fold only merges, keeping the key list, the invariant, and
turning each stored value into its triple-class fold. -/
theorem rFold_pass2 (S : List Relationship) :
    ∀ l, RelMapWF l → (∀ r ∈ S, hasTriple l (relTriple r)) →
      akeys (rFold l S) = akeys l
      ∧ (∀ k ρ, alookup k l = some ρ →
          alookup k (rFold l S)
            = some (relFold ρ
                (S.filter (fun r => decide (relTriple r = relTriple ρ))))) := by
  induction S with
  | nil =>
    intro l _ _
    exact ⟨rfl, fun k ρ hk => hk⟩
  | cons r₀ S' ih =>
    intro l hwf hall
    obtain ⟨k₀, ex, hfind⟩ :=
      findMatchingRel_isSome_of_hasTriple (hall r₀ (List.mem_cons_self _ _))
    obtain ⟨hmem, htr⟩ := findMatchingRel_some hfind
    have hk0 : k₀ ≠ [] := hwf.2.1 _ hmem
    have hex : alookup k₀ l = some ex := alookup_of_mem_nodup hwf.1 hmem
    have hstep : rStep l r₀ = aset k₀ (mergeRel ex r₀) l := rStep_merge hfind hk0
    have hwf₁ : RelMapWF (aset k₀ (mergeRel ex r₀) l) :=
      relMapWF_aset_merge r₀ hwf hex
    have hall₁ : ∀ r ∈ S', hasTriple (aset k₀ (mergeRel ex r₀) l) (relTriple r) :=
      fun r hr => hasTriple_aset_merge r₀ hex _ (hall r (List.mem_cons_of_mem r₀ hr))
    obtain ⟨ihkeys, ihlk⟩ := ih (aset k₀ (mergeRel ex r₀) l) hwf₁ hall₁
    have hfold : rFold l (r₀ :: S') = rFold (aset k₀ (mergeRel ex r₀) l) S' := by
      show rFold (rStep l r₀) S' = _
      rw [hstep]
    refine ⟨?_, ?_⟩
    · rw [hfold, ihkeys]
      exact akeys_aset_of_isSome _ (by rw [hex]; rfl)
    · intro k ρ hk
      rw [hfold]
      by_cases hkk : k = k₀
      · subst hkk
        have hρ : ρ = ex := by
          have hh := hex
          rw [hk] at hh
          exact Option.some.inj hh
        subst hρ
        rw [ihlk k (mergeRel ρ r₀) (alookup_aset_self _ _ _)]
        congr 1
        rw [List.filter_cons_of_pos (by simp [htr]), relTriple_mergeRel]
        rfl
      · have hk₁ : alookup k (aset k₀ (mergeRel ex r₀) l) = some ρ := by
          rw [alookup_aset_ne (fun hh => hkk hh.symm)]
          exact hk
        rw [ihlk k ρ hk₁]
        have hne : relTriple ex ≠ relTriple ρ :=
          triples_ne_of_mem hwf.2.2 hmem (alookup_mem hk) (fun hh => hkk hh.symm)
        have hfil : (r₀ :: S').filter (fun r => decide (relTriple r = relTriple ρ))
            = S'.filter (fun r => decide (relTriple r = relTriple ρ)) :=
          List.filter_cons_of_neg
            (by simp only [decide_eq_true_eq]
                exact fun hh => hne (htr.trans hh))
        rw [hfil]

theorem alookup_cons_ne {α : Type} {k₀ k : GoStr} (hne : k₀ ≠ k) (v : α)
    (l : List (GoStr × α)) : alookup k ((k₀, v) :: l) = alookup k l := by
  show (if k₀ = k then some v else alookup k l) = alookup k l
  rw [if_neg hne]

/-- An association list with duplicate-free keys is determined by its key
list and its lookups. -/
theorem assoc_ext_of_lookups {α : Type} :
    ∀ (l l' : List (GoStr × α)), akeys l' = akeys l → NodupKeys l →
      (∀ k, alookup k l' = alookup k l) → l' = l := by
  intro l
  induction l with
  | nil =>
    intro l' hkeys _ _
    cases l' with
    | nil => rfl
    | cons q t' => simp [akeys] at hkeys
  | cons p t ih =>
    intro l' hkeys hnd hlk
    obtain ⟨k₀, v₀⟩ := p
    cases l' with
    | nil => simp [akeys] at hkeys
    | cons q t' =>
      obtain ⟨k₁, v₁⟩ := q
      have hke : k₁ = k₀ ∧ akeys t' = akeys t := by
        simpa [akeys] using hkeys
      obtain ⟨hk1, htkeys⟩ := hke
      subst hk1
      have hv : v₁ = v₀ := by
        have hh := hlk k₁
        simpa [alookup] using hh
      subst hv
      have hnd' : NodupKeys t := (nodupKeys_cons.1 hnd).2
      have hknot : k₁ ∉ akeys t := (nodupKeys_cons.1 hnd).1
      have hknot' : k₁ ∉ akeys t' := by
        rw [htkeys]
        exact hknot
      have htail : ∀ k, alookup k t' = alookup k t := by
        intro k
        by_cases hkk : k₁ = k
        · subst hkk
          rw [alookup_eq_none_of_not_mem_keys hknot',
            alookup_eq_none_of_not_mem_keys hknot]
        · have hh := hlk k
          rw [alookup_cons_ne hkk, alookup_cons_ne hkk] at hh
          exact hh
      rw [ih t' htkeys hnd' htail]

/-- Replaying the applied relationship batch a second time changes
nothing. -/
theorem rFold_idem (P : List Relationship) (l : List (GoStr × Relationship))
    (HW : RelMapWF l) (HCo : rCoh P l)
    (HP1 : ∀ r ∈ P, NodupKeys r.properties)
    (HP2 : ∀ r ∈ P, r.id ≠ ([] : GoStr))
    (HP3 : ∀ r ∈ P, ∀ r' ∈ P, r.id = r'.id → relTriple r = relTriple r') :
    rFold (rFold l P) P = rFold l P := by
  obtain ⟨hwf₁, _, hall, hlk₁⟩ := rFold_pass1 P l HW HCo HP2 HP3
  obtain ⟨hkeys₂, hlk₂⟩ := rFold_pass2 P (rFold l P) hwf₁ hall
  refine assoc_ext_of_lookups (rFold l P) (rFold (rFold l P) P) hkeys₂ hwf₁.1 ?_
  intro k
  cases hk : alookup k (rFold l P) with
  | none =>
    have hknot : k ∉ akeys (rFold l P) := by
      intro hmem
      have hs := alookup_isSome_of_mem_keys hmem
      rw [hk] at hs
      exact Bool.noConfusion hs
    have hknot₂ : k ∉ akeys (rFold (rFold l P) P) := by
      rw [hkeys₂]
      exact hknot
    rw [alookup_eq_none_of_not_mem_keys hknot₂]
  | some ρ =>
    rw [hlk₂ k ρ hk]
    congr 1
    cases h₀ : alookup k l with
    | some ρ₀ =>
      have hval := hlk₁ k ρ₀ h₀
      rw [hk] at hval
      have hρ : ρ = relFold ρ₀
          (P.filter (fun r => decide (relTriple r = relTriple ρ₀))) :=
        Option.some.inj hval
      rw [hρ, relFold_triple]
      exact relFold_refold _ _
    | none =>
      rcases rFold_pass1_new P l HW HCo HP2 HP3 k h₀ with
        hnone | ⟨f, C', hfil, hkid, hnot, hval⟩
      · rw [hk] at hnone
        exact Option.noConfusion hnone
      · rw [hk] at hval
        have hρ : ρ = relFold f C' := Option.some.inj hval
        have hfP : f ∈ P := by
          have hmem : f ∈ P.filter (fun r => decide (relTriple r = relTriple f)) := by
            rw [hfil]
            exact List.mem_cons_self _ _
          exact List.mem_of_mem_filter hmem
        rw [hρ, relFold_triple, hfil]
        exact relFold_refold_inserted C' f (HP1 f hfP)

/-- One batch run in closed form: the entity fold, then the pure
relationship fold over the prefix passing the endpoint checks. -/
theorem applyBatch_eq (E : List Entity) (R : List Relationship) (s : Store) :
    applyBatch E R s
      = { entities := eFold s.entities E,
          relationships :=
            rFold s.relationships (R.takeWhile (okRel (eFold s.entities E))) } := by
  unfold applyBatch
  rw [dbCreateEntities_eq, relsApplied_eq]

/-- C1 (amended): upserting the same entity/relationship batch twice via
`CreateEntities`/`CreateRelationships` yields a store identical to
upserting it once, provided the batch and the starting store are
well-formed and coherent: every property map in the batch is a real
(duplicate-free) Go map, batch relationship ids are non-empty, batch
relationships sharing an id share their `(source, target, type)` triple,
the stored relationship map has duplicate-free non-empty keys and
pairwise-distinct triples, and a stored key equal to a batch
relationship's id carries that relationship's triple. Without these
provisos the claim fails (see the counterexample): inserting a
relationship under an id that already keys a different-triple edge
overwrites that edge, so a second run inserts the destroyed edge again. -/
theorem upsert_idempotent (s : Store) (E : List Entity) (R : List Relationship)
    (HE : ∀ e ∈ E, NodupKeys e.properties)
    (HR1 : ∀ r ∈ R, NodupKeys r.properties)
    (HR2 : ∀ r ∈ R, r.id ≠ ([] : GoStr))
    (HR3 : ∀ r ∈ R, ∀ r' ∈ R, r.id = r'.id → relTriple r = relTriple r')
    (HS : RelWF s)
    (HCoh : ∀ p ∈ s.relationships, ∀ r ∈ R, p.1 = r.id → relTriple p.2 = relTriple r) :
    applyBatch E R (applyBatch E R s) = applyBatch E R s := by
  have hPmem : ∀ r ∈ R.takeWhile (okRel (eFold s.entities E)), r ∈ R :=
    fun r hr => (List.takeWhile_sublist _).subset hr
  have hε : eFold (eFold s.entities E) E = eFold s.entities E :=
    eFold_idem E s.entities HE
  have hrel :
      rFold (rFold s.relationships (R.takeWhile (okRel (eFold s.entities E))))
          (R.takeWhile (okRel (eFold s.entities E)))
        = rFold s.relationships (R.takeWhile (okRel (eFold s.entities E))) :=
    rFold_idem _ s.relationships HS
      (fun p hp r hr => HCoh p hp r (hPmem r hr))
      (fun r hr => HR1 r (hPmem r hr))
      (fun r hr => HR2 r (hPmem r hr))
      (fun r hr r' hr' => HR3 r (hPmem r hr) r' (hPmem r' hr'))
  rw [applyBatch_eq E R s, applyBatch_eq E R]
  show ({ entities := eFold (eFold s.entities E) E,
          relationships :=
            rFold (rFold s.relationships (R.takeWhile (okRel (eFold s.entities E))))
              (R.takeWhile (okRel (eFold (eFold s.entities E) E))) } : Store) = _
  rw [hε, hrel]

/-- Concrete witness batch for the amended idempotence theorem. -/
def c1wEnt : Entity :=
  ⟨str "a", str "File", str "FILE", [(str "path", PValue.s (str "a"))], 1⟩

/-- Concrete witness relationship for the amended idempotence theorem. -/
def c1wRel : Relationship :=
  ⟨str "x", str "a", str "a", str "CONTAINS", [], 1⟩

/-- Closed witness for the amended C1: on a concrete one-entity,
one-relationship batch over the empty store, all hypotheses hold and the
second run changes nothing. -/
theorem upsert_idempotent_witness :
    (∀ r ∈ [c1wRel], r.id ≠ ([] : GoStr))
    ∧ (∀ e ∈ [c1wEnt], NodupKeys e.properties)
    ∧ applyBatch [c1wEnt] [c1wRel] (applyBatch [c1wEnt] [c1wRel] ⟨[], []⟩)
        = applyBatch [c1wEnt] [c1wRel] ⟨[], []⟩ :=
  ⟨by decide, by decide,
    upsert_idempotent ⟨[], []⟩ [c1wEnt] [c1wRel] (by decide) (by decide)
      (by decide) (by decide) ⟨by decide, by decide, List.Pairwise.nil⟩
      (by decide)⟩
